import Mathlib

/-!
Verification of the diff core of the mdpad Markdown editor.

The embedding covers the two pure diff subsystems of the repository:

* `computeDiff` / `addWordLevelDiffs` from `src/renderer/lib/diff-engine.js`
  (the line diff engine with word-level detail), and
* `splitIntoBlocks` / `renderMarkdownDiff` / `renderMarkdownDiffInline` from
  `src/renderer/lib/markdown-diff.js` (the block-structured Markdown diff).

JavaScript strings are embedded as explicit character lists (`Str`), so
that splitting and joining are structurally recursive and provable.  The
external "diff" library (`diffLines`, `diffWords`, `diffArrays`) is not part
of the repository; following the specification it is modelled as an
LCS-based edit script whose consecutive equal-kind edits are merged into
change objects.
-/

namespace MdPad

/-- Characters of a JavaScript string.  The embedding works with explicit
character lists so that splitting and joining admit structural induction. -/
abbrev Str := List Char

/-- Model of the JavaScript `value.split("\n")`: the pieces between newline
characters; the empty string yields one empty piece. -/
def splitOnNl : Str → List Str
  | [] => [[]]
  | c :: cs =>
    if c = '\n' then [] :: splitOnNl cs
    else
      match splitOnNl cs with
      | [] => [[c]]
      | p :: ps => (c :: p) :: ps

/-- Model of `current.join("\n")`: join line strings with single newlines. -/
def joinLines : List Str → Str
  | [] => []
  | [l] => l
  | l :: ls => l ++ '\n' :: joinLines ls

/-- Model of `value.replace(/\n$/, "")`: drop one trailing newline. -/
def stripNl (l : Str) : Str :=
  if l.getLast? = some '\n' then l.dropLast else l

/-- Modelled from the spec: the line tokenizer of the external diff library
(`diffLines`).  The pieces of a newline split are re-joined so that every
line token retains its terminating newline; a trailing newline does not
produce an extra empty token. -/
def rejoinPieces : List Str → List Str
  | [] => []
  | [p] => if p = [] then [] else [p]
  | p :: ps => (p ++ ['\n']) :: rejoinPieces ps

/-- Modelled from the spec: text split into newline-retaining line tokens,
as tokenized by the external library's `diffLines`. -/
def tokenizeLines (s : Str) : List Str := rejoinPieces (splitOnNl s)

/-- One element of a sequence edit script. -/
inductive Edit (α : Type) where
  | common (a : α)
  | removed (a : α)
  | added (a : α)
deriving DecidableEq, Repr

/-- Kind tag of a diff entry or of an edit: unchanged, added or removed. -/
inductive DiffKind where
  | unchanged
  | added
  | removed
deriving DecidableEq, Repr

/-- Kind of an edit. -/
def editKind : Edit α → DiffKind
  | .common _ => .unchanged
  | .removed _ => .removed
  | .added _ => .added

/-- Token carried by an edit. -/
def editTok : Edit α → α
  | .common a => a
  | .removed a => a
  | .added a => a

/-- Modelled from the spec: length of a longest common subsequence, with
explicit fuel so that the definition is structurally recursive and
evaluates by kernel reduction. -/
def lcsLen [DecidableEq α] : Nat → List α → List α → Nat
  | _, [], _ => 0
  | _, _ :: _, [] => 0
  | 0, _ :: _, _ :: _ => 0
  | fuel + 1, a :: as, b :: bs =>
    if a = b then lcsLen fuel as bs + 1
    else max (lcsLen fuel as (b :: bs)) (lcsLen fuel (a :: as) bs)

/-- Modelled from the spec: the LCS-based edit script produced by the
external diff library's sequence-diff primitive.  Deletions are preferred
before insertions, so a fully changed region yields its removals before its
additions, as the reference library does. -/
def editScriptF [DecidableEq α] : Nat → List α → List α → List (Edit α)
  | _, [], ys => ys.map .added
  | _, x :: xs, [] => (x :: xs).map .removed
  | 0, _ :: _, _ :: _ => []
  | fuel + 1, x :: xs, y :: ys =>
    if x = y then .common x :: editScriptF fuel xs ys
    else if lcsLen fuel (x :: xs) ys ≤ lcsLen fuel xs (y :: ys) then
      .removed x :: editScriptF fuel xs (y :: ys)
    else .added y :: editScriptF fuel (x :: xs) ys

/-- Modelled from the spec: the sequence-diff primitive shared by line,
word and block diffing, with enough fuel for its inputs. -/
def editScript [DecidableEq α] (xs ys : List α) : List (Edit α) :=
  editScriptF (xs.length + ys.length) xs ys

/-- Modelled from the spec: the library merges consecutive edits of a single
kind into one change object; this groups an edit script into (kind, tokens)
runs. -/
def groupRuns : List (Edit α) → List (DiffKind × List α)
  | [] => []
  | e :: es =>
    match groupRuns es with
    | [] => [(editKind e, [editTok e])]
    | (k, ts) :: rest =>
      if editKind e = k then (k, editTok e :: ts) :: rest
      else (editKind e, [editTok e]) :: (k, ts) :: rest

/-- Modelled from the spec: one change object of the external diff library —
a value together with its `added` / `removed` flags (both false for a
common run). -/
structure ChangePart (α : Type) where
  value : α
  added : Bool
  removed : Bool
deriving DecidableEq, Repr

/-- Modelled from the spec: `diffLines(oldText, newText)` of the "diff"
library — an LCS diff over newline-retaining line tokens whose change
objects carry the concatenated tokens of each run. -/
def diffLines (oldText newText : Str) : List (ChangePart Str) :=
  (groupRuns (editScript (tokenizeLines oldText) (tokenizeLines newText))).map
    (fun r => ⟨r.2.flatten, r.1 == DiffKind.added, r.1 == DiffKind.removed⟩)

/-- Word characters of the word tokenizer: letters, digits and underscore
(JavaScript `\w`). -/
def isWordChar (c : Char) : Bool := c.isAlphanum || c = '_'

/-- Modelled from the spec: the word tokenizer — maximal runs of word
characters and maximal runs of non-word characters each form one token, so
punctuation and whitespace boundaries are their own tokens. -/
def tokenizeWords : Str → List Str
  | [] => []
  | c :: cs =>
    match tokenizeWords cs with
    | [] => [[c]]
    | [] :: rest => [c] :: [] :: rest
    | (d :: t) :: rest =>
      if isWordChar c = isWordChar d then (c :: d :: t) :: rest
      else [c] :: (d :: t) :: rest

/-- Modelled from the spec: `diffWords(oldLine, newLine)` of the "diff"
library — an LCS diff over word/non-word tokens whose change objects carry
the concatenated tokens of each run. -/
def diffWords (oldLine newLine : Str) : List (ChangePart Str) :=
  (groupRuns (editScript (tokenizeWords oldLine) (tokenizeWords newLine))).map
    (fun r => ⟨r.2.flatten, r.1 == DiffKind.added, r.1 == DiffKind.removed⟩)

/-- One row of `computeDiff`'s result (diff-engine.js): `{ type, lines,
oldLine, newLine }`, with `wordDiffs` attached afterwards by
`addWordLevelDiffs`. -/
structure DiffEntry where
  type : DiffKind
  lines : List Str
  oldLine : Option Nat
  newLine : Option Nat
  wordDiffs : Option (List (ChangePart Str))
deriving DecidableEq, Repr

/-- Inner loop of `computeDiff` (`for (const line of lines)`): one entry per
line of a change part, advancing the 1-based line counters of the sides the
part belongs to. -/
def pushLines (ad rm : Bool) : List Str → Nat → Nat → List DiffEntry
  | [], _, _ => []
  | l :: ls, oldN, newN =>
    if ad then
      ⟨.added, [l], none, some newN, none⟩ :: pushLines ad rm ls oldN (newN + 1)
    else if rm then
      ⟨.removed, [l], some oldN, none, none⟩ :: pushLines ad rm ls (oldN + 1) newN
    else
      ⟨.unchanged, [l], some oldN, some newN, none⟩ :: pushLines ad rm ls (oldN + 1) (newN + 1)

/-- Main loop of `computeDiff` over the change parts of `diffLines`: split
each part's value into lines after stripping one trailing newline, handle
the trailing-newline edge case, and emit tagged entries while advancing the
two line counters. -/
def computeDiffAux : List (ChangePart Str) → Nat → Nat → List DiffEntry
  | [], _, _ => []
  | p :: ps, oldN, newN =>
    let lines := splitOnNl (stripNl p.value)
    if p.value = [] ∨ (lines.length = 1 ∧ lines.headD [] = [] ∧ p.value = ['\n']) then
      (if p.added then [⟨.added, [[]], none, some newN, none⟩]
       else if p.removed then [⟨.removed, [[]], some oldN, none, none⟩]
       else [⟨.unchanged, [[]], some oldN, some newN, none⟩]) ++
      computeDiffAux ps (if p.added then oldN else oldN + 1)
        (if p.removed then newN else newN + 1)
    else
      pushLines p.added p.removed lines oldN newN ++
      computeDiffAux ps (if p.added then oldN else oldN + lines.length)
        (if p.removed then newN else newN + lines.length)

/-- First line of an entry (`diffResult[i].lines[0]`). -/
def headLine (e : DiffEntry) : Str := e.lines.headD []

/-- Attach a word diff to an entry (`diffResult[i].wordDiffs = wordDiffs`). -/
def setWd (e : DiffEntry) (wd : List (ChangePart Str)) : DiffEntry :=
  { e with wordDiffs := some wd }

/-- Forward scan of `addWordLevelDiffs`: whenever a removed entry is
immediately followed by an added entry, both receive the identical word
diff of their first lines. -/
def awlAux : DiffEntry → List DiffEntry → List DiffEntry
  | e, [] => [e]
  | e1, e2 :: rest =>
    if e1.type = DiffKind.removed ∧ e2.type = DiffKind.added then
      setWd e1 (diffWords (headLine e1) (headLine e2)) ::
        awlAux (setWd e2 (diffWords (headLine e1) (headLine e2))) rest
    else e1 :: awlAux e2 rest

/-- The post-pass `addWordLevelDiffs(diffResult)` of diff-engine.js. -/
def addWordLevelDiffs : List DiffEntry → List DiffEntry
  | [] => []
  | e :: rest => awlAux e rest

/-- The entry point `computeDiff(oldText, newText)` of diff-engine.js. -/
def computeDiff (oldText newText : Str) : List DiffEntry :=
  addWordLevelDiffs (computeDiffAux (diffLines oldText newText) 1 1)

/-- JavaScript whitespace as tested by `trim()` and `\s`, restricted to the
ASCII whitespace characters (the Unicode space characters never occur in
the scenarios settled here). -/
def isJsWs (c : Char) : Bool :=
  c = ' ' || c = '\t' || c = '\n' || c = '\r' || c = '\x0b' || c = '\x0c'

/-- Blank-line test `line.trim() === ""` of markdown-diff.js. -/
def isBlank (l : Str) : Bool := l.all isJsWs

/-- The backtick character (code point 96). -/
def btChar : Char := Char.ofNat 96

/-- Fence-opener test `line.match(/^(`{3,}|~{3,})/)`: a run of at least
three backticks or at least three tildes at line start; yields the fence
character and the length of the maximal matched run. -/
def fenceOpen (l : Str) : Option (Char × Nat) :=
  let bt := l.takeWhile (fun c => c = btChar)
  let td := l.takeWhile (fun c => c = '~')
  if bt.length ≥ 3 then some (btChar, bt.length)
  else if td.length ≥ 3 then some ('~', td.length)
  else none

/-- Closing-fence test, the dynamically built regex `^X{fenceLen,}\s*$`
with `X` chosen as backtick when the opening fence character is a backtick
and tilde otherwise: at line start (no leading whitespace) at least
`fenceLen` fence characters, followed by whitespace only. -/
def closesFence (c : Char) (n : Nat) (l : Str) : Bool :=
  let x := if c = btChar then btChar else '~'
  let run := l.takeWhile (fun d => d = x)
  n ≤ run.length && (l.drop run.length).all isJsWs

/-- Table-row test `/^\|/.test(line)`: the line starts with a pipe. -/
def isTableRow : Str → Bool
  | [] => false
  | c :: _ => c = '|'

/-- Block-quote test `/^>/.test(line)`: the line starts with `>`. -/
def isBlockQuote : Str → Bool
  | [] => false
  | c :: _ => c = '>'

/-- List-item test `/^(\s*[-*+]|\s*\d+[.)]\s)/.test(line)`: optional
whitespace then a bullet character, or optional whitespace then digits,
a dot or a closing parenthesis, and one whitespace character. -/
def isListItem (l : Str) : Bool :=
  let r := l.dropWhile isJsWs
  match r with
  | [] => false
  | c :: _ =>
    (c = '-' || c = '*' || c = '+') ||
      (let ds := r.takeWhile Char.isDigit
       !ds.isEmpty &&
         match r.drop ds.length with
         | p :: w :: _ => (p = '.' || p = ')') && isJsWs w
         | _ => false)

/-- Indented-continuation test `/^\s+\S/.test(line)`: at least one leading
whitespace character followed by a non-whitespace character. -/
def isIndented (l : Str) : Bool :=
  match l with
  | [] => false
  | c :: _ => isJsWs c && !(l.dropWhile isJsWs).isEmpty

/-- State of the `splitIntoBlocks` line scanner: the emitted blocks, the
lines of the currently open block, and the open-fence bookkeeping.  The
source resets `fenceChar` to the empty string; the model uses a space,
which is never consulted while no fence is open. -/
structure SplitState where
  blocks : List Str
  current : List Str
  inFence : Bool
  fenceChar : Char
  fenceLen : Nat
deriving DecidableEq, Repr

/-- Initial scanner state of `splitIntoBlocks`. -/
def initState : SplitState := ⟨[], [], false, ' ', 0⟩

/-- The `flush()` helper: push the joined current lines as a block when the
current block is non-empty. -/
def flushState (st : SplitState) : SplitState :=
  if st.current = [] then st
  else { st with blocks := st.blocks ++ [joinLines st.current], current := [] }

/-- One iteration of the `splitIntoBlocks` line loop. -/
def splitStep (st : SplitState) (line : Str) : SplitState :=
  if st.inFence then
    let st := { st with current := st.current ++ [line] }
    if closesFence st.fenceChar st.fenceLen line then
      flushState { st with inFence := false, fenceChar := ' ', fenceLen := 0 }
    else st
  else
    match fenceOpen line with
    | some (c, n) =>
      let st := flushState st
      { st with inFence := true, fenceChar := c, fenceLen := n,
                current := st.current ++ [line] }
    | none =>
      if isBlank line then flushState st
      else
        match st.current.getLast? with
        | some prevLine =>
          let pT := isTableRow prevLine
          let pQ := isBlockQuote prevLine
          let pL := isListItem prevLine ||
            (isIndented prevLine && decide (st.current.length ≥ 2))
          let iT := isTableRow line
          let iQ := isBlockQuote line
          let iL := isListItem line
          let iI := isIndented line
          if iT && pT then { st with current := st.current ++ [line] }
          else if iQ && pQ then { st with current := st.current ++ [line] }
          else if pL && (iL || iI) then { st with current := st.current ++ [line] }
          else if (iT && !pT) || (iQ && !pQ) || (pT && !iT) || (pQ && !iQ) then
            let st := flushState st
            { st with current := st.current ++ [line] }
          else { st with current := st.current ++ [line] }
        | none => { st with current := st.current ++ [line] }

/-- `splitIntoBlocks(text)` of markdown-diff.js: scan the newline-split
lines, then flush the remaining current block (including an unclosed
fence). -/
def splitIntoBlocks (text : Str) : List Str :=
  (flushState ((splitOnNl text).foldl splitStep initState)).blocks

/-- Modelled from the spec: `diffArrays` of the "diff" library — the same
LCS diff over whole blocks compared by exact string equality; each change
object carries its block run as an array. -/
def diffArrays (olds news : List Str) : List (ChangePart (List Str)) :=
  (groupRuns (editScript olds news)).map
    (fun r => ⟨r.2, r.1 == DiffKind.added, r.1 == DiffKind.removed⟩)

/-- The "no changes" sentinel both renderers return for identical inputs. -/
def noChangesHtml : Str := "<div class=\"md-diff-empty\">No changes</div>".toList

/-- Wrap rendered HTML in a kind-tagged container div. -/
def wrapDiv (cls : Str) (inner : Str) : Str :=
  "<div class=\"".toList ++ cls ++ "\">".toList ++ inner ++ "</div>".toList

/-- Container class of an unchanged block. -/
def clsUnchanged : Str := "md-diff-unchanged".toList

/-- Container class of an added block. -/
def clsAdded : Str := "md-diff-added".toList

/-- Container class of a removed block. -/
def clsRemoved : Str := "md-diff-removed".toList

/-- `renderMarkdownDiff(oldText, newText)` of markdown-diff.js,
parameterized by the out-of-scope Markdown renderer. -/
def renderMarkdownDiff (render : Str → Str) (oldText newText : Str) : Str :=
  if oldText = newText then noChangesHtml
  else
    let blockDiffs := diffArrays (splitIntoBlocks oldText) (splitIntoBlocks newText)
    (blockDiffs.map (fun part =>
      (part.value.map (fun block =>
        if part.added then wrapDiv clsAdded (render block)
        else if part.removed then wrapDiv clsRemoved (render block)
        else wrapDiv clsUnchanged (render block))).flatten)).flatten

/-- Pairwise interleaving of a removed block run with the added run that
follows it (the `maxLen` loop of `renderMarkdownDiffInline`). -/
def interleaveBlocks (render : Str → Str) : List Str → List Str → Str
  | [], [] => []
  | x :: xs, [] => wrapDiv clsRemoved (render x) ++ interleaveBlocks render xs []
  | [], y :: ys => wrapDiv clsAdded (render y) ++ interleaveBlocks render [] ys
  | x :: xs, y :: ys =>
    wrapDiv clsRemoved (render x) ++ wrapDiv clsAdded (render y) ++
      interleaveBlocks render xs ys

/-- Part loop of `renderMarkdownDiffInline`; the index skip over a consumed
replacement pair is expressed by recursing past both parts. -/
def inlineParts (render : Str → Str) : List (ChangePart (List Str)) → Str
  | [] => []
  | part :: rest =>
    if !part.added && !part.removed then
      (part.value.map (fun b => wrapDiv clsUnchanged (render b))).flatten ++
        inlineParts render rest
    else if part.removed then
      match rest with
      | next :: rest' =>
        if next.added then
          interleaveBlocks render part.value next.value ++ inlineParts render rest'
        else
          (part.value.map (fun b => wrapDiv clsRemoved (render b))).flatten ++
            inlineParts render (next :: rest')
      | [] =>
        (part.value.map (fun b => wrapDiv clsRemoved (render b))).flatten ++
          inlineParts render []
    else
      (part.value.map (fun b => wrapDiv clsAdded (render b))).flatten ++
        inlineParts render rest

/-- `renderMarkdownDiffInline(oldText, newText)` of markdown-diff.js,
parameterized by the out-of-scope Markdown renderer. -/
def renderMarkdownDiffInline (render : Str → Str) (oldText newText : Str) : Str :=
  if oldText = newText then noChangesHtml
  else
    "<div class=\"md-diff-inline-view\">".toList ++
      inlineParts render
        (diffArrays (splitIntoBlocks oldText) (splitIntoBlocks newText)) ++
      "</div>".toList

/-! Basic facts about the modelled sequence-diff primitive. -/

/-- Old-side token of an edit: common and removed edits consume old tokens. -/
def oldTok : Edit α → Option α
  | .common a => some a
  | .removed a => some a
  | .added _ => none

/-- New-side token of an edit: common and added edits consume new tokens. -/
def newTok : Edit α → Option α
  | .common a => some a
  | .added a => some a
  | .removed _ => none

/-- Branch selector of the non-fence, non-blank arm of `splitStep`: true
when the line is appended to the open block, false when a table/quote type
change flushes first. -/
def pushKeep (cur : List Str) (line : Str) : Bool :=
  match cur.getLast? with
  | none => true
  | some prev =>
    (isTableRow line && isTableRow prev) ||
    (isBlockQuote line && isBlockQuote prev) ||
    ((isListItem prev || (isIndented prev && decide (cur.length ≥ 2))) &&
      (isListItem line || isIndented line)) ||
    !((isTableRow line && !isTableRow prev) ||
      (isBlockQuote line && !isBlockQuote prev) ||
      (isTableRow prev && !isTableRow line) ||
      (isBlockQuote prev && !isBlockQuote line))

/-- Modelled from the spec: the closing-fence test as C4 words it, allowing
optional leading whitespace before the closing run of fence characters. -/
def closesFenceClaim (c : Char) (n : Nat) (l : Str) : Bool :=
  let x := if c = btChar then btChar else '~'
  let r := l.dropWhile isJsWs
  let run := r.takeWhile (fun d => d = x)
  n ≤ run.length && (r.drop run.length).all isJsWs

/-- A well-formed emitted block: non-empty, and its first line is
non-blank. -/
def GoodBlock (b : Str) : Prop :=
  b ≠ [] ∧ isBlank ((splitOnNl b).headD []) = false

/-- Scanner invariant: every emitted block is well formed, the open block
(when non-empty) consists of newline-free lines and starts with a
non-blank line, and an open fence always has a non-empty open block. -/
def GoodState (st : SplitState) : Prop :=
  (∀ b ∈ st.blocks, GoodBlock b) ∧
  (st.current ≠ [] → (∀ l ∈ st.current, '\n' ∉ l) ∧
    isBlank (st.current.headD []) = false) ∧
  (st.inFence = true → st.current ≠ [])

theorem filterMap_oldTok_map_added (ys : List α) :
    (ys.map Edit.added).filterMap oldTok = [] := by
  induction ys with
  | nil => rfl
  | cons y ys ih => simp [oldTok, ih]

theorem filterMap_oldTok_map_removed (xs : List α) :
    (xs.map Edit.removed).filterMap oldTok = xs := by
  induction xs with
  | nil => rfl
  | cons x xs ih => simp [oldTok, ih]

theorem filterMap_newTok_map_removed (xs : List α) :
    (xs.map Edit.removed).filterMap newTok = [] := by
  induction xs with
  | nil => rfl
  | cons x xs ih => simp [newTok, ih]

theorem filterMap_newTok_map_added (ys : List α) :
    (ys.map Edit.added).filterMap newTok = ys := by
  induction ys with
  | nil => rfl
  | cons y ys ih => simp [newTok, ih]

/-- Reconstruction, old side: the common and removed edits of an edit
script list exactly the old token sequence, in order. -/
theorem editScriptF_old [DecidableEq α] (fuel : Nat) (xs ys : List α)
    (h : xs.length + ys.length ≤ fuel) :
    (editScriptF fuel xs ys).filterMap oldTok = xs := by
  induction fuel generalizing xs ys with
  | zero =>
    match xs, ys with
    | [], ys => simp only [editScriptF]; exact filterMap_oldTok_map_added ys
    | x :: xs, [] => simp only [editScriptF]; exact filterMap_oldTok_map_removed (x :: xs)
    | x :: xs, y :: ys => simp at h
  | succ fuel ih =>
    match xs, ys with
    | [], ys => simp only [editScriptF]; exact filterMap_oldTok_map_added ys
    | x :: xs, [] => simp only [editScriptF]; exact filterMap_oldTok_map_removed (x :: xs)
    | x :: xs, y :: ys =>
      simp only [List.length_cons] at h
      have h0 : xs.length + ys.length ≤ fuel := by omega
      have h1 : xs.length + (y :: ys).length ≤ fuel := by
        simp only [List.length_cons]; omega
      have h2 : (x :: xs).length + ys.length ≤ fuel := by
        simp only [List.length_cons]; omega
      simp only [editScriptF]
      by_cases hxy : x = y
      · simp [hxy, oldTok, ih xs ys h0]
      · by_cases hl : lcsLen fuel (x :: xs) ys ≤ lcsLen fuel xs (y :: ys)
        · simp [hxy, hl, oldTok, ih xs (y :: ys) h1]
        · simp [hxy, hl, oldTok, ih (x :: xs) ys h2]

/-- Reconstruction, new side. -/
theorem editScriptF_new [DecidableEq α] (fuel : Nat) (xs ys : List α)
    (h : xs.length + ys.length ≤ fuel) :
    (editScriptF fuel xs ys).filterMap newTok = ys := by
  induction fuel generalizing xs ys with
  | zero =>
    match xs, ys with
    | [], ys => simp only [editScriptF]; exact filterMap_newTok_map_added ys
    | x :: xs, [] => simp only [editScriptF]; exact filterMap_newTok_map_removed (x :: xs)
    | x :: xs, y :: ys => simp at h
  | succ fuel ih =>
    match xs, ys with
    | [], ys => simp only [editScriptF]; exact filterMap_newTok_map_added ys
    | x :: xs, [] => simp only [editScriptF]; exact filterMap_newTok_map_removed (x :: xs)
    | x :: xs, y :: ys =>
      simp only [List.length_cons] at h
      have h0 : xs.length + ys.length ≤ fuel := by omega
      have h1 : xs.length + (y :: ys).length ≤ fuel := by
        simp only [List.length_cons]; omega
      have h2 : (x :: xs).length + ys.length ≤ fuel := by
        simp only [List.length_cons]; omega
      simp only [editScriptF]
      by_cases hxy : x = y
      · simp [hxy, newTok, ih xs ys h0]
      · by_cases hl : lcsLen fuel (x :: xs) ys ≤ lcsLen fuel xs (y :: ys)
        · simp [hxy, hl, newTok, ih xs (y :: ys) h1]
        · simp [hxy, hl, newTok, ih (x :: xs) ys h2]

theorem editScript_old [DecidableEq α] (xs ys : List α) :
    (editScript xs ys).filterMap oldTok = xs :=
  editScriptF_old _ xs ys le_rfl

theorem editScript_new [DecidableEq α] (xs ys : List α) :
    (editScript xs ys).filterMap newTok = ys :=
  editScriptF_new _ xs ys le_rfl

/-- An edit script of a sequence against itself is all-common. -/
theorem editScriptF_self [DecidableEq α] (fuel : Nat) (xs : List α)
    (h : xs.length + xs.length ≤ fuel) :
    editScriptF fuel xs xs = xs.map Edit.common := by
  induction fuel generalizing xs with
  | zero =>
    match xs with
    | [] => simp [editScriptF]
    | x :: xs => simp at h
  | succ fuel ih =>
    match xs with
    | [] => simp [editScriptF]
    | x :: xs =>
      simp only [List.length_cons] at h
      have h0 : xs.length + xs.length ≤ fuel := by omega
      simp [editScriptF, ih xs h0]

theorem editScript_self [DecidableEq α] (xs : List α) :
    editScript xs xs = xs.map Edit.common :=
  editScriptF_self _ xs le_rfl

/-! String-splitting facts. -/

theorem splitOnNl_ne_nil (s : Str) : splitOnNl s ≠ [] := by
  induction s with
  | nil => simp [splitOnNl]
  | cons c cs ih =>
    simp only [splitOnNl]
    by_cases h : c = '\n'
    · simp [h]
    · rw [if_neg h]
      rcases hs : splitOnNl cs with _ | ⟨p, ps⟩ <;> simp

theorem splitOnNl_no_nl (s : Str) (h : '\n' ∉ s) : splitOnNl s = [s] := by
  induction s with
  | nil => rfl
  | cons c cs ih =>
    simp only [List.mem_cons, not_or] at h
    simp only [splitOnNl]
    rw [if_neg (fun hc => h.1 hc.symm), ih h.2]

theorem splitOnNl_append_nl (c rest : Str) (h : '\n' ∉ c) :
    splitOnNl (c ++ '\n' :: rest) = c :: splitOnNl rest := by
  induction c with
  | nil => simp [splitOnNl]
  | cons a c ih =>
    simp only [List.mem_cons, not_or] at h
    simp only [List.cons_append, splitOnNl, List.append_eq]
    rw [if_neg (fun hc => h.1 hc.symm), ih h.2]

theorem splitOnNl_mem_no_nl (s : Str) : ∀ p ∈ splitOnNl s, '\n' ∉ p := by
  induction s with
  | nil => simp [splitOnNl]
  | cons c cs ih =>
    intro p hp
    simp only [splitOnNl] at hp
    by_cases h : c = '\n'
    · rw [if_pos h] at hp
      rcases List.mem_cons.mp hp with h1 | h1
      · simp [h1]
      · exact ih p h1
    · rw [if_neg h] at hp
      rcases hs : splitOnNl cs with _ | ⟨q, qs⟩
      · exact absurd hs (splitOnNl_ne_nil cs)
      · rw [hs] at hp
        rcases List.mem_cons.mp hp with h1 | h1
        · subst h1
          intro hm
          rcases List.mem_cons.mp hm with h2 | h2
          · exact h h2.symm
          · exact ih q (hs ▸ List.mem_cons_self q qs) h2
        · exact ih p (hs ▸ List.mem_cons_of_mem q h1)

theorem splitOnNl_joinLines (ls : List Str) (h : ∀ l ∈ ls, '\n' ∉ l)
    (hne : ls ≠ []) : splitOnNl (joinLines ls) = ls := by
  induction ls with
  | nil => exact absurd rfl hne
  | cons l ls ih =>
    rcases ls with _ | ⟨l', ls'⟩
    · exact splitOnNl_no_nl l (h l (List.mem_cons_self l []))
    · have hl : '\n' ∉ l := h l (List.mem_cons_self _ _)
      have h' : ∀ x ∈ l' :: ls', '\n' ∉ x := fun x hx => h x (List.mem_cons_of_mem l hx)
      show splitOnNl (l ++ '\n' :: joinLines (l' :: ls')) = l :: l' :: ls'
      rw [splitOnNl_append_nl _ _ hl, ih h' (by simp)]

theorem stripNl_concat_nl (c : Str) : stripNl (c ++ ['\n']) = c := by
  simp [stripNl, List.getLast?_concat, List.dropLast_concat]

theorem stripNl_no_nl (c : Str) (h : '\n' ∉ c) : stripNl c = c := by
  unfold stripNl
  by_cases hl : c.getLast? = some '\n'
  · exact absurd (List.mem_of_mem_getLast? hl) h
  · rw [if_neg hl]

theorem stripNl_append (c rest : Str) (h : rest ≠ []) :
    stripNl (c ++ '\n' :: rest) = c ++ '\n' :: stripNl rest := by
  have hg : (c ++ '\n' :: rest).getLast? = rest.getLast? := by
    rw [show c ++ '\n' :: rest = (c ++ ['\n']) ++ rest by simp,
      List.getLast?_append_of_ne_nil _ h]
  have hd : (c ++ '\n' :: rest).dropLast = c ++ '\n' :: rest.dropLast := by
    rw [show c ++ '\n' :: rest = (c ++ ['\n']) ++ rest by simp,
      List.dropLast_append_of_ne_nil _ h]
    simp
  unfold stripNl
  by_cases hl : rest.getLast? = some '\n'
  · rw [hg, if_pos hl, if_pos hl, hd]
  · rw [hg, if_neg hl, if_neg hl]

/-! Well-formed token lists of the modelled line tokenizer. -/

/-- A good line token: a newline-free piece with its terminating newline,
or a non-empty newline-free final piece. -/
def GoodTok (t : Str) : Prop :=
  ∃ c : Str, '\n' ∉ c ∧ (t = c ++ ['\n'] ∨ (t = c ∧ c ≠ []))

/-- In a chained token list, every token that has a successor ends in a
newline. -/
def NlChain (ts : List Str) : Prop :=
  ∀ A t u B, ts = A ++ t :: u :: B → t.getLast? = some '\n'

/-- Well-formed token lists: every token good, and only the final token may
miss its terminating newline. -/
inductive Toks : List Str → Prop
  | nil : Toks []
  | last (c : Str) : '\n' ∉ c → c ≠ [] → Toks [c]
  | cons (c : Str) (ts : List Str) : '\n' ∉ c → Toks ts → Toks ((c ++ ['\n']) :: ts)

theorem NlChain.tail {t : Str} {ts : List Str} (h : NlChain (t :: ts)) :
    NlChain ts := fun A a u B hab => h (t :: A) a u B (by simp [hab])

theorem toks_of_good_chain (ts : List Str) (hg : ∀ t ∈ ts, GoodTok t)
    (hc : NlChain ts) : Toks ts := by
  induction ts with
  | nil => exact Toks.nil
  | cons t ts ih =>
    rcases ts with _ | ⟨u, ts'⟩
    · rcases hg t (List.mem_cons_self _ _) with ⟨c, hnl, hcase | ⟨rfl, hne⟩⟩
      · subst hcase; exact Toks.cons c [] hnl Toks.nil
      · exact Toks.last t hnl hne
    · have hend : t.getLast? = some '\n' := hc [] t u ts' rfl
      rcases hg t (List.mem_cons_self _ _) with ⟨c, hnl, hcase | ⟨rfl, hne⟩⟩
      · subst hcase
        exact Toks.cons c (u :: ts') hnl
          (ih (fun x hx => hg x (List.mem_cons_of_mem _ hx)) hc.tail)
      · exact absurd (List.mem_of_mem_getLast? hend) hnl

theorem Toks.flatten_ne_nil {ts : List Str} (h : Toks ts) (hne : ts ≠ []) :
    ts.flatten ≠ [] := by
  induction h with
  | nil => exact absurd rfl hne
  | last c hnl hcne => simpa using hcne
  | cons c ts hnl htoks ih => simp

/-- The key line-extraction fact: splitting the concatenation of a
well-formed token run on newlines, after stripping one trailing newline,
recovers exactly the tokens with their trailing newlines stripped. -/
theorem splitOnNl_stripNl_flatten (ts : List Str) (h : Toks ts) (hne : ts ≠ []) :
    splitOnNl (stripNl ts.flatten) = ts.map stripNl := by
  induction h with
  | nil => exact absurd rfl hne
  | last c hnl hcne =>
    simp [stripNl_no_nl c hnl, splitOnNl_no_nl c hnl]
  | cons c ts hnl htoks ih =>
    rcases ts with _ | ⟨t, ts'⟩
    · simp [stripNl_concat_nl, splitOnNl_no_nl c hnl]
    · have hflat : ((c ++ ['\n']) :: t :: ts').flatten = c ++ '\n' :: (t :: ts').flatten := by
        simp
      have hfne : (t :: ts').flatten ≠ [] := htoks.flatten_ne_nil (by simp)
      rw [hflat, stripNl_append _ _ hfne, splitOnNl_append_nl _ _ hnl, ih (by simp)]
      simp [stripNl_concat_nl]

/-! Well-formedness of the modelled line tokenizer's output. -/

theorem rejoinPieces_good (ps : List Str) (h : ∀ p ∈ ps, '\n' ∉ p) :
    ∀ t ∈ rejoinPieces ps, GoodTok t := by
  induction ps with
  | nil => simp [rejoinPieces]
  | cons p ps ih =>
    intro t ht
    rcases ps with _ | ⟨q, qs⟩
    · simp only [rejoinPieces] at ht
      by_cases hp : p = []
      · simp [hp] at ht
      · rw [if_neg hp] at ht
        simp only [List.mem_singleton] at ht
        subst ht
        exact ⟨t, h t (List.mem_cons_self _ _), Or.inr ⟨rfl, hp⟩⟩
    · simp only [rejoinPieces] at ht
      rcases List.mem_cons.mp ht with h1 | h1
      · subst h1
        exact ⟨p, h p (List.mem_cons_self _ _), Or.inl rfl⟩
      · exact ih (fun x hx => h x (List.mem_cons_of_mem _ hx)) t h1

theorem rejoinPieces_dropLast_nl (ps : List Str) :
    ∀ t ∈ (rejoinPieces ps).dropLast, t.getLast? = some '\n' := by
  induction ps with
  | nil => simp [rejoinPieces]
  | cons p ps ih =>
    rcases ps with _ | ⟨q, qs⟩
    · intro t ht
      simp only [rejoinPieces] at ht
      by_cases hp : p = [] <;> simp [hp] at ht
    · intro t ht
      simp only [rejoinPieces] at ht
      rcases hr : rejoinPieces (q :: qs) with _ | ⟨r, rs⟩
      · rw [hr] at ht
        simp at ht
      · rw [hr, List.dropLast_cons₂] at ht
        rcases List.mem_cons.mp ht with h1 | h1
        · subst h1
          exact List.getLast?_concat _
        · exact ih t (hr ▸ h1)

theorem nlChain_of_dropLast (ts : List Str)
    (h : ∀ t ∈ ts.dropLast, t.getLast? = some '\n') : NlChain ts := by
  intro A t u B hab
  apply h
  rw [hab, List.dropLast_append_of_ne_nil _ (by simp)]
  simp

theorem nlChain_infix {ts zs : List Str} (hinf : ∃ pre suf, zs = pre ++ ts ++ suf)
    (h : NlChain zs) : NlChain ts := by
  rcases hinf with ⟨pre, suf, rfl⟩
  intro A t u B hab
  exact h (pre ++ A) t u (B ++ suf) (by simp [hab])

theorem tokenizeLines_good (s : Str) : ∀ t ∈ tokenizeLines s, GoodTok t :=
  rejoinPieces_good _ (splitOnNl_mem_no_nl s)

theorem tokenizeLines_chain (s : Str) : NlChain (tokenizeLines s) :=
  nlChain_of_dropLast _ (rejoinPieces_dropLast_nl _)

/-! Old- and new-side token runs of a grouped edit script. -/

/-- Concatenated old-side tokens of a run list (the non-added runs). -/
def runsOld (rs : List (DiffKind × List α)) : List α :=
  (rs.map (fun r => if r.1 = DiffKind.added then [] else r.2)).flatten

/-- Concatenated new-side tokens of a run list (the non-removed runs). -/
def runsNew (rs : List (DiffKind × List α)) : List α :=
  (rs.map (fun r => if r.1 = DiffKind.removed then [] else r.2)).flatten

theorem runsOld_cons (k : DiffKind) (ts : List α) (rest : List (DiffKind × List α)) :
    runsOld ((k, ts) :: rest) =
      (if k = DiffKind.added then [] else ts) ++ runsOld rest := by
  simp [runsOld]

theorem runsNew_cons (k : DiffKind) (ts : List α) (rest : List (DiffKind × List α)) :
    runsNew ((k, ts) :: rest) =
      (if k = DiffKind.removed then [] else ts) ++ runsNew rest := by
  simp [runsNew]

theorem groupRuns_old (es : List (Edit α)) :
    runsOld (groupRuns es) = es.filterMap oldTok := by
  induction es with
  | nil => rfl
  | cons e es ih =>
    rcases hg : groupRuns es with _ | ⟨⟨k, ts⟩, rest⟩
    · rw [hg] at ih
      have hstep : groupRuns (e :: es) = [(editKind e, [editTok e])] := by
        simp only [groupRuns, hg]
      rw [hstep]
      cases e <;>
        simp [runsOld_cons, runsOld, oldTok, editKind, editTok,
          List.filterMap_cons, ← ih]
    · rw [hg] at ih
      by_cases hk : editKind e = k
      · have hstep : groupRuns (e :: es) = (k, editTok e :: ts) :: rest := by
          simp only [groupRuns, hg]
          rw [if_pos hk]
        rw [hstep]
        cases e <;> simp only [editKind] at hk <;> subst hk <;>
          simp [runsOld_cons, oldTok, editKind, editTok, List.filterMap_cons,
            ← ih]
      · have hstep : groupRuns (e :: es)
            = (editKind e, [editTok e]) :: (k, ts) :: rest := by
          simp only [groupRuns, hg]
          rw [if_neg hk]
        rw [hstep]
        cases e <;>
          simp [runsOld_cons, oldTok, editKind, editTok, List.filterMap_cons,
            ← ih]

theorem groupRuns_new (es : List (Edit α)) :
    runsNew (groupRuns es) = es.filterMap newTok := by
  induction es with
  | nil => rfl
  | cons e es ih =>
    rcases hg : groupRuns es with _ | ⟨⟨k, ts⟩, rest⟩
    · rw [hg] at ih
      have hstep : groupRuns (e :: es) = [(editKind e, [editTok e])] := by
        simp only [groupRuns, hg]
      rw [hstep]
      cases e <;>
        simp [runsNew_cons, runsNew, newTok, editKind, editTok,
          List.filterMap_cons, ← ih]
    · rw [hg] at ih
      by_cases hk : editKind e = k
      · have hstep : groupRuns (e :: es) = (k, editTok e :: ts) :: rest := by
          simp only [groupRuns, hg]
          rw [if_pos hk]
        rw [hstep]
        cases e <;> simp only [editKind] at hk <;> subst hk <;>
          simp [runsNew_cons, newTok, editKind, editTok, List.filterMap_cons,
            ← ih]
      · have hstep : groupRuns (e :: es)
            = (editKind e, [editTok e]) :: (k, ts) :: rest := by
          simp only [groupRuns, hg]
          rw [if_neg hk]
        rw [hstep]
        cases e <;>
          simp [runsNew_cons, newTok, editKind, editTok, List.filterMap_cons,
            ← ih]

theorem groupRuns_mem_ne_nil (es : List (Edit α)) :
    ∀ r ∈ groupRuns es, r.2 ≠ [] := by
  induction es with
  | nil => simp [groupRuns]
  | cons e es ih =>
    intro r hr
    rcases hg : groupRuns es with _ | ⟨⟨k, ts⟩, rest⟩
    · have hstep : groupRuns (e :: es) = [(editKind e, [editTok e])] := by
        simp only [groupRuns, hg]
      rw [hstep] at hr
      simp only [List.mem_singleton] at hr
      simp [hr]
    · by_cases hk : editKind e = k
      · have hstep : groupRuns (e :: es) = (k, editTok e :: ts) :: rest := by
          simp only [groupRuns, hg]
          rw [if_pos hk]
        rw [hstep] at hr
        rcases List.mem_cons.mp hr with h1 | h1
        · subst h1; simp
        · exact ih r (hg ▸ List.mem_cons_of_mem _ h1)
      · have hstep : groupRuns (e :: es)
            = (editKind e, [editTok e]) :: (k, ts) :: rest := by
          simp only [groupRuns, hg]
          rw [if_neg hk]
        rw [hstep] at hr
        rcases List.mem_cons.mp hr with h1 | h1
        · subst h1; simp
        · exact ih r (hg ▸ h1)

theorem runsOld_infix_of_mem {rs : List (DiffKind × List α)} {k : DiffKind}
    {ts : List α} (hmem : (k, ts) ∈ rs) (hk : k ≠ DiffKind.added) :
    ∃ pre suf, runsOld rs = pre ++ ts ++ suf := by
  induction rs with
  | nil => simp at hmem
  | cons r rest ih =>
    rcases List.mem_cons.mp hmem with h1 | h1
    · rcases r with ⟨k', ts'⟩
      obtain ⟨rfl, rfl⟩ : k = k' ∧ ts = ts' := by
        constructor <;> [exact congrArg Prod.fst h1; exact congrArg Prod.snd h1]
      exact ⟨[], runsOld rest, by simp [runsOld_cons, hk]⟩
    · rcases ih h1 with ⟨pre, suf, hps⟩
      rcases r with ⟨k', ts'⟩
      exact ⟨(if k' = DiffKind.added then [] else ts') ++ pre, suf, by
        simp [runsOld_cons, hps]⟩

theorem runsNew_infix_of_mem {rs : List (DiffKind × List α)} {k : DiffKind}
    {ts : List α} (hmem : (k, ts) ∈ rs) (hk : k ≠ DiffKind.removed) :
    ∃ pre suf, runsNew rs = pre ++ ts ++ suf := by
  induction rs with
  | nil => simp at hmem
  | cons r rest ih =>
    rcases List.mem_cons.mp hmem with h1 | h1
    · rcases r with ⟨k', ts'⟩
      obtain ⟨rfl, rfl⟩ : k = k' ∧ ts = ts' := by
        constructor <;> [exact congrArg Prod.fst h1; exact congrArg Prod.snd h1]
      exact ⟨[], runsNew rest, by simp [runsNew_cons, hk]⟩
    · rcases ih h1 with ⟨pre, suf, hps⟩
      rcases r with ⟨k', ts'⟩
      exact ⟨(if k' = DiffKind.removed then [] else ts') ++ pre, suf, by
        simp [runsNew_cons, hps]⟩

/-- Every non-added run of the grouped line edit script is a well-formed
token list. -/
theorem oldRun_toks (a b : Str) {k : DiffKind} {ts : List Str}
    (hmem : (k, ts) ∈ groupRuns (editScript (tokenizeLines a) (tokenizeLines b)))
    (hk : k ≠ DiffKind.added) : Toks ts := by
  have hflat :
      runsOld (groupRuns (editScript (tokenizeLines a) (tokenizeLines b)))
        = tokenizeLines a := by
    rw [groupRuns_old, editScript_old]
  rcases runsOld_infix_of_mem hmem hk with ⟨pre, suf, hps⟩
  apply toks_of_good_chain
  · intro t ht
    apply tokenizeLines_good a t
    rw [← hflat, hps]
    simp [ht]
  · exact nlChain_infix ⟨pre, suf, by rw [← hflat, hps]⟩ (tokenizeLines_chain a)

/-- Every non-removed run of the grouped line edit script is a well-formed
token list. -/
theorem newRun_toks (a b : Str) {k : DiffKind} {ts : List Str}
    (hmem : (k, ts) ∈ groupRuns (editScript (tokenizeLines a) (tokenizeLines b)))
    (hk : k ≠ DiffKind.removed) : Toks ts := by
  have hflat :
      runsNew (groupRuns (editScript (tokenizeLines a) (tokenizeLines b)))
        = tokenizeLines b := by
    rw [groupRuns_new, editScript_new]
  rcases runsNew_infix_of_mem hmem hk with ⟨pre, suf, hps⟩
  apply toks_of_good_chain
  · intro t ht
    apply tokenizeLines_good b t
    rw [← hflat, hps]
    simp [ht]
  · exact nlChain_infix ⟨pre, suf, by rw [← hflat, hps]⟩ (tokenizeLines_chain b)

/-! Line-level reconstruction through `computeDiff`. -/

/-- The lines a change part's value expands to inside `computeDiff`. -/
def extractLines (v : Str) : List Str := splitOnNl (stripNl v)

/-- The logical line sequence of a text: its line tokens with their trailing
newlines stripped, so a trailing newline does not contribute an extra empty
final line. -/
def linesOf (s : Str) : List Str := (tokenizeLines s).map stripNl

theorem edge_extractLines (v : Str)
    (h : v = [] ∨ ((splitOnNl (stripNl v)).length = 1 ∧
      (splitOnNl (stripNl v)).headD [] = [] ∧ v = ['\n'])) :
    extractLines v = [[]] := by
  rcases h with h | ⟨h1, h2, _⟩
  · subst h
    rfl
  · unfold extractLines
    rcases hs : splitOnNl (stripNl v) with _ | ⟨p, ps⟩
    · exact absurd hs (splitOnNl_ne_nil _)
    · rw [hs] at h1 h2
      rcases ps with _ | ⟨q, qs⟩
      · simp at h2
        rw [h2]
      · simp at h1

theorem pushLines_old (ad rm : Bool) (ls : List Str) (oldN newN : Nat) :
    (((pushLines ad rm ls oldN newN).filter
        (fun e => !(e.type == DiffKind.added))).map DiffEntry.lines).flatten
      = if ad then [] else ls := by
  induction ls generalizing oldN newN with
  | nil => cases ad <;> simp [pushLines]
  | cons l ls ih =>
    cases ad with
    | true => simp [pushLines, ih]
    | false =>
      cases rm with
      | true => simp [pushLines, ih]
      | false => simp [pushLines, ih]

theorem pushLines_new (ad rm : Bool) (ls : List Str) (oldN newN : Nat) :
    (((pushLines ad rm ls oldN newN).filter
        (fun e => !(e.type == DiffKind.removed))).map DiffEntry.lines).flatten
      = if ad then ls else if rm then [] else ls := by
  induction ls generalizing oldN newN with
  | nil => cases ad <;> cases rm <;> simp [pushLines]
  | cons l ls ih =>
    cases ad with
    | true => simp [pushLines, ih]
    | false =>
      cases rm with
      | true => simp [pushLines, ih]
      | false => simp [pushLines, ih]

theorem computeDiffAux_old (ps : List (ChangePart Str)) (oldN newN : Nat) :
    (((computeDiffAux ps oldN newN).filter
        (fun e => !(e.type == DiffKind.added))).map DiffEntry.lines).flatten
      = ((ps.filter (fun p => !p.added)).map
          (fun p => extractLines p.value)).flatten := by
  induction ps generalizing oldN newN with
  | nil => rfl
  | cons p ps ih =>
    simp only [computeDiffAux]
    by_cases hedge : p.value = [] ∨ ((splitOnNl (stripNl p.value)).length = 1 ∧
        (splitOnNl (stripNl p.value)).headD [] = [] ∧ p.value = ['\n'])
    · rw [if_pos hedge]
      have hx := edge_extractLines p.value hedge
      cases hpa : p.added with
      | true =>
        simp only [if_pos]
        simp [List.filter_append, List.map_append, List.flatten_append, hpa, ih]
      | false =>
        cases hpr : p.removed with
        | true =>
          simp [List.filter_append, List.map_append, List.flatten_append,
            hpa, hpr, ih, hx]
        | false =>
          simp [List.filter_append, List.map_append, List.flatten_append,
            hpa, hpr, ih, hx]
    · rw [if_neg hedge]
      cases hpa : p.added with
      | true =>
        simp [List.filter_append, List.map_append, List.flatten_append,
          hpa, ih, pushLines_old]
      | false =>
        simp [List.filter_append, List.map_append, List.flatten_append,
          hpa, ih, pushLines_old, extractLines]

theorem computeDiffAux_new (ps : List (ChangePart Str)) (oldN newN : Nat) :
    (((computeDiffAux ps oldN newN).filter
        (fun e => !(e.type == DiffKind.removed))).map DiffEntry.lines).flatten
      = ((ps.filter (fun p => !p.removed || p.added)).map
          (fun p => extractLines p.value)).flatten := by
  induction ps generalizing oldN newN with
  | nil => rfl
  | cons p ps ih =>
    simp only [computeDiffAux]
    by_cases hedge : p.value = [] ∨ ((splitOnNl (stripNl p.value)).length = 1 ∧
        (splitOnNl (stripNl p.value)).headD [] = [] ∧ p.value = ['\n'])
    · rw [if_pos hedge]
      have hx := edge_extractLines p.value hedge
      cases hpa : p.added with
      | true =>
        simp [List.filter_append, List.map_append, List.flatten_append,
          hpa, ih, hx]
      | false =>
        cases hpr : p.removed with
        | true =>
          simp [List.filter_append, List.map_append, List.flatten_append,
            hpa, hpr, ih]
        | false =>
          simp [List.filter_append, List.map_append, List.flatten_append,
            hpa, hpr, ih, hx]
    · rw [if_neg hedge]
      cases hpa : p.added with
      | true =>
        simp [List.filter_append, List.map_append, List.flatten_append,
          hpa, ih, pushLines_new, extractLines]
      | false =>
        cases hpr : p.removed with
        | true =>
          simp [List.filter_append, List.map_append, List.flatten_append,
            hpa, hpr, ih, pushLines_new]
        | false =>
          simp [List.filter_append, List.map_append, List.flatten_append,
            hpa, hpr, ih, pushLines_new, extractLines]

/-! The word-diff post-pass only touches the `wordDiffs` field. -/

/-- Projection of an entry to everything except its word diff. -/
def projEntry (e : DiffEntry) : DiffKind × List Str × Option Nat × Option Nat :=
  (e.type, e.lines, e.oldLine, e.newLine)

theorem projEntry_setWd (e : DiffEntry) (wd : List (ChangePart Str)) :
    projEntry (setWd e wd) = projEntry e := rfl

theorem awlAux_map_proj (e : DiffEntry) (l : List DiffEntry) :
    (awlAux e l).map projEntry = projEntry e :: l.map projEntry := by
  induction l generalizing e with
  | nil => rfl
  | cons e2 rest ih =>
    simp only [awlAux]
    by_cases h : e.type = DiffKind.removed ∧ e2.type = DiffKind.added
    · rw [if_pos h]
      simp [ih, projEntry_setWd]
    · rw [if_neg h]
      simp [ih]

theorem addWordLevelDiffs_map_proj (l : List DiffEntry) :
    (addWordLevelDiffs l).map projEntry = l.map projEntry := by
  cases l with
  | nil => rfl
  | cons e rest => exact awlAux_map_proj e rest

theorem proj_filter_lines_added (l₁ l₂ : List DiffEntry)
    (h : l₁.map projEntry = l₂.map projEntry) :
    ((l₁.filter (fun e => !(e.type == DiffKind.added))).map
        DiffEntry.lines).flatten =
      ((l₂.filter (fun e => !(e.type == DiffKind.added))).map
        DiffEntry.lines).flatten := by
  induction l₁ generalizing l₂ with
  | nil =>
    cases l₂ with
    | nil => rfl
    | cons b l₂ => simp at h
  | cons a l₁ ih =>
    cases l₂ with
    | nil => simp at h
    | cons b l₂ =>
      simp only [List.map_cons, List.cons.injEq] at h
      have ht : a.type = b.type := congrArg Prod.fst h.1
      have hl : a.lines = b.lines := congrArg (fun x => x.2.1) h.1
      simp only [List.filter_cons, ht, hl]
      by_cases hp : (!(b.type == DiffKind.added)) = true
      · simp [hp, ih l₂ h.2, hl]
      · simp [hp, ih l₂ h.2]

theorem proj_filter_lines_removed (l₁ l₂ : List DiffEntry)
    (h : l₁.map projEntry = l₂.map projEntry) :
    ((l₁.filter (fun e => !(e.type == DiffKind.removed))).map
        DiffEntry.lines).flatten =
      ((l₂.filter (fun e => !(e.type == DiffKind.removed))).map
        DiffEntry.lines).flatten := by
  induction l₁ generalizing l₂ with
  | nil =>
    cases l₂ with
    | nil => rfl
    | cons b l₂ => simp at h
  | cons a l₁ ih =>
    cases l₂ with
    | nil => simp at h
    | cons b l₂ =>
      simp only [List.map_cons, List.cons.injEq] at h
      have ht : a.type = b.type := congrArg Prod.fst h.1
      have hl : a.lines = b.lines := congrArg (fun x => x.2.1) h.1
      simp only [List.filter_cons, ht, hl]
      by_cases hp : (!(b.type == DiffKind.removed)) = true
      · simp [hp, ih l₂ h.2, hl]
      · simp [hp, ih l₂ h.2]

/-- Old-side lines contributed by the change parts built from a sublist of
the grouped line runs. -/
theorem runs_extract_old (a b : Str) (rs : List (DiffKind × List Str))
    (hsub : ∀ r ∈ rs,
      r ∈ groupRuns (editScript (tokenizeLines a) (tokenizeLines b))) :
    (((rs.map (fun r => (⟨r.2.flatten, r.1 == DiffKind.added,
            r.1 == DiffKind.removed⟩ : ChangePart Str))).filter
        (fun p => !p.added)).map (fun p => extractLines p.value)).flatten
      = (runsOld rs).map stripNl := by
  induction rs with
  | nil => rfl
  | cons r rest ih =>
    rcases r with ⟨k, ts⟩
    have hmem := hsub (k, ts) (List.mem_cons_self _ _)
    have hrest := fun r hr => hsub r (List.mem_cons_of_mem _ hr)
    by_cases hk : k = DiffKind.added
    · subst hk
      simp [runsOld_cons, ih hrest]
    · have htoks : Toks ts := oldRun_toks a b hmem hk
      have hne : ts ≠ [] := groupRuns_mem_ne_nil _ _ hmem
      have hbeq : (k == DiffKind.added) = false := by
        simp [hk]
      simp only [List.map_cons, List.filter_cons, hbeq, Bool.not_false,
        if_pos, List.map_cons, List.flatten_cons, runsOld_cons, hk, if_neg,
        List.map_append]
      rw [show extractLines ts.flatten = ts.map stripNl from
        splitOnNl_stripNl_flatten ts htoks hne, ih hrest]
      simp [hk]

/-- New-side lines contributed by the change parts built from a sublist of
the grouped line runs. -/
theorem runs_extract_new (a b : Str) (rs : List (DiffKind × List Str))
    (hsub : ∀ r ∈ rs,
      r ∈ groupRuns (editScript (tokenizeLines a) (tokenizeLines b))) :
    (((rs.map (fun r => (⟨r.2.flatten, r.1 == DiffKind.added,
            r.1 == DiffKind.removed⟩ : ChangePart Str))).filter
        (fun p => !p.removed || p.added)).map
          (fun p => extractLines p.value)).flatten
      = (runsNew rs).map stripNl := by
  induction rs with
  | nil => rfl
  | cons r rest ih =>
    rcases r with ⟨k, ts⟩
    have hmem := hsub (k, ts) (List.mem_cons_self _ _)
    have hrest := fun r hr => hsub r (List.mem_cons_of_mem _ hr)
    by_cases hk : k = DiffKind.removed
    · subst hk
      simp [runsNew_cons, ih hrest]
    · have htoks : Toks ts := newRun_toks a b hmem hk
      have hne : ts ≠ [] := groupRuns_mem_ne_nil _ _ hmem
      have hsplit : extractLines ts.flatten = ts.map stripNl :=
        splitOnNl_stripNl_flatten ts htoks hne
      cases k with
      | unchanged => simp [runsNew_cons, ih hrest, hsplit]
      | added => simp [runsNew_cons, ih hrest, hsplit]
      | removed => exact absurd rfl hk

/-! Claim theorems: reconstruction and the no-changes short-circuit. -/

/-- C1: filtering the output of `computeDiff` to entries whose kind is
Unchanged or Removed and concatenating their line texts reproduces the old
text's line sequence, and the Unchanged-or-Added filter reproduces the new
text's line sequence.  `linesOf` is the naive newline split without the
extra empty final line a trailing newline would otherwise produce — the
trailing-newline edge case the claim sets aside. -/
theorem computeDiff_reconstructs (a b : Str) :
    (((computeDiff a b).filter (fun e => !(e.type == DiffKind.added))).map
        DiffEntry.lines).flatten = linesOf a ∧
    (((computeDiff a b).filter (fun e => !(e.type == DiffKind.removed))).map
        DiffEntry.lines).flatten = linesOf b := by
  constructor
  · have h1 := proj_filter_lines_added _ _
      (addWordLevelDiffs_map_proj (computeDiffAux (diffLines a b) 1 1))
    show (((addWordLevelDiffs (computeDiffAux (diffLines a b) 1 1)).filter
        (fun e => !(e.type == DiffKind.added))).map DiffEntry.lines).flatten
        = linesOf a
    rw [h1, computeDiffAux_old]
    show ((((groupRuns (editScript (tokenizeLines a) (tokenizeLines b))).map
        (fun r => (⟨r.2.flatten, r.1 == DiffKind.added,
          r.1 == DiffKind.removed⟩ : ChangePart Str))).filter
        (fun p => !p.added)).map (fun p => extractLines p.value)).flatten
        = linesOf a
    rw [runs_extract_old a b _ (fun r hr => hr), groupRuns_old, editScript_old]
    rfl
  · have h1 := proj_filter_lines_removed _ _
      (addWordLevelDiffs_map_proj (computeDiffAux (diffLines a b) 1 1))
    show (((addWordLevelDiffs (computeDiffAux (diffLines a b) 1 1)).filter
        (fun e => !(e.type == DiffKind.removed))).map DiffEntry.lines).flatten
        = linesOf b
    rw [h1, computeDiffAux_new]
    show ((((groupRuns (editScript (tokenizeLines a) (tokenizeLines b))).map
        (fun r => (⟨r.2.flatten, r.1 == DiffKind.added,
          r.1 == DiffKind.removed⟩ : ChangePart Str))).filter
        (fun p => !p.removed || p.added)).map
          (fun p => extractLines p.value)).flatten
        = linesOf b
    rw [runs_extract_new a b _ (fun r hr => hr), groupRuns_new, editScript_new]
    rfl

/-- C5: for every renderer and every text `x` — the empty text included —
both `renderMarkdownDiff(x, x)` and `renderMarkdownDiffInline(x, x)` return
the single "no changes" sentinel.  The result is the same for every
renderer argument, so the equality fast-path provably consults neither the
renderer, nor the block splitter, nor the sequence diff. -/
theorem renderMarkdownDiff_self (render : Str → Str) (x : Str) :
    renderMarkdownDiff render x x = noChangesHtml ∧
      renderMarkdownDiffInline render x x = noChangesHtml := by
  constructor <;> simp [renderMarkdownDiff, renderMarkdownDiffInline]

/-! Identity diff. -/

theorem groupRuns_map_common (x : α) (xs : List α) :
    groupRuns ((x :: xs).map Edit.common) = [(DiffKind.unchanged, x :: xs)] := by
  induction xs generalizing x with
  | nil => rfl
  | cons y ys ih =>
    rw [List.map_cons, groupRuns, ih y]
    simp [editKind, editTok]

theorem diffLines_self (a : Str) :
    diffLines a a = if tokenizeLines a = [] then []
      else [⟨(tokenizeLines a).flatten, false, false⟩] := by
  unfold diffLines
  rw [editScript_self]
  rcases hx : tokenizeLines a with _ | ⟨t, ts⟩
  · simp [groupRuns]
  · rw [groupRuns_map_common]
    simp

theorem pushLines_self (ls : List Str) (n : Nat) :
    ∀ e ∈ pushLines false false ls n n,
      e.type = DiffKind.unchanged ∧ e.oldLine = e.newLine := by
  induction ls generalizing n with
  | nil => simp [pushLines]
  | cons l ls ih =>
    intro e he
    simp only [pushLines, Bool.false_eq_true, if_false] at he
    rcases List.mem_cons.mp he with h | h
    · subst h
      exact ⟨rfl, rfl⟩
    · exact ih (n + 1) e h

theorem computeDiffAux_self_part (v : Str) :
    ∀ e ∈ computeDiffAux [⟨v, false, false⟩] 1 1,
      e.type = DiffKind.unchanged ∧ e.oldLine = e.newLine := by
  intro e he
  simp only [computeDiffAux, Bool.false_eq_true, if_false] at he
  by_cases hedge : v = [] ∨ ((splitOnNl (stripNl v)).length = 1 ∧
      (splitOnNl (stripNl v)).headD [] = [] ∧ v = ['\n'])
  · rw [if_pos hedge] at he
    simp only [computeDiffAux, List.append_nil] at he
    simp only [List.mem_singleton] at he
    subst he
    exact ⟨rfl, rfl⟩
  · rw [if_neg hedge] at he
    simp only [computeDiffAux, List.append_nil] at he
    exact pushLines_self _ 1 e he

theorem awlAux_mem_proj (e0 : DiffEntry) (l : List DiffEntry) :
    ∀ e ∈ awlAux e0 l, ∃ e', e' ∈ e0 :: l ∧ projEntry e' = projEntry e := by
  induction l generalizing e0 with
  | nil =>
    intro e he
    simp only [awlAux, List.mem_singleton] at he
    exact ⟨e0, List.mem_cons_self _ _, by rw [he]⟩
  | cons e2 rest ih =>
    intro e he
    simp only [awlAux] at he
    by_cases h : e0.type = DiffKind.removed ∧ e2.type = DiffKind.added
    · rw [if_pos h] at he
      rcases List.mem_cons.mp he with h1 | h1
      · exact ⟨e0, List.mem_cons_self _ _, by rw [h1]; rfl⟩
      · rcases ih _ e h1 with ⟨e', he', hp⟩
        rcases List.mem_cons.mp he' with h2 | h2
        · refine ⟨e2, List.mem_cons_of_mem _ (List.mem_cons_self _ _), ?_⟩
          rw [← hp, h2]
          rfl
        · exact ⟨e', List.mem_cons_of_mem _ (List.mem_cons_of_mem _ h2), hp⟩
    · rw [if_neg h] at he
      rcases List.mem_cons.mp he with h1 | h1
      · exact ⟨e0, List.mem_cons_self _ _, by rw [h1]⟩
      · rcases ih e2 e h1 with ⟨e', he', hp⟩
        exact ⟨e', List.mem_cons_of_mem _ he', hp⟩

theorem addWordLevelDiffs_mem_proj (l : List DiffEntry) :
    ∀ e ∈ addWordLevelDiffs l, ∃ e', e' ∈ l ∧ projEntry e' = projEntry e := by
  cases l with
  | nil => simp [addWordLevelDiffs]
  | cons e0 rest => exact awlAux_mem_proj e0 rest

/-- C7: the line diff of a text against itself yields only Unchanged
entries, and every entry carries equal old-side and new-side line
numbers. -/
theorem computeDiff_self (a : Str) :
    ∀ e ∈ computeDiff a a,
      e.type = DiffKind.unchanged ∧ e.oldLine = e.newLine := by
  intro e he
  rcases addWordLevelDiffs_mem_proj _ e he with ⟨e', he', hp⟩
  have h1 : e'.type = DiffKind.unchanged ∧ e'.oldLine = e'.newLine := by
    rw [diffLines_self] at he'
    by_cases h : tokenizeLines a = []
    · rw [if_pos h] at he'
      simp [computeDiffAux] at he'
    · rw [if_neg h] at he'
      exact computeDiffAux_self_part _ e' he'
  have ht : e'.type = e.type := congrArg Prod.fst hp
  have ho : e'.oldLine = e.oldLine := congrArg (fun x => x.2.2.1) hp
  have hn : e'.newLine = e.newLine := congrArg (fun x => x.2.2.2) hp
  exact ⟨ht ▸ h1.1, ho ▸ hn ▸ h1.2⟩

/-! Line-number bookkeeping. -/

/-- Number of old-side entries (Unchanged or Removed) of an entry list. -/
def oldCount (l : List DiffEntry) : Nat :=
  l.countP (fun e => !(e.type == DiffKind.added))

/-- Number of new-side entries (Unchanged or Added) of an entry list. -/
def newCount (l : List DiffEntry) : Nat :=
  l.countP (fun e => !(e.type == DiffKind.removed))

theorem oldCount_append (l₁ l₂ : List DiffEntry) :
    oldCount (l₁ ++ l₂) = oldCount l₁ + oldCount l₂ :=
  List.countP_append _ _ _

theorem newCount_append (l₁ l₂ : List DiffEntry) :
    newCount (l₁ ++ l₂) = newCount l₁ + newCount l₂ :=
  List.countP_append _ _ _

theorem range'_append_one (s m n : Nat) :
    List.range' s m ++ List.range' (s + m) n = List.range' s (m + n) := by
  rw [Nat.add_comm m n, ← List.range'_append s m n 1, one_mul]

theorem pushLines_presence (ad rm : Bool) (ls : List Str) (o n : Nat) :
    ∀ e ∈ pushLines ad rm ls o n,
      (e.oldLine.isSome = !(e.type == DiffKind.added)) ∧
      (e.newLine.isSome = !(e.type == DiffKind.removed)) := by
  induction ls generalizing o n with
  | nil => simp [pushLines]
  | cons l ls ih =>
    intro e he
    simp only [pushLines] at he
    by_cases ha : ad = true
    · rw [if_pos ha] at he
      rcases List.mem_cons.mp he with h | h
      · subst h; exact ⟨rfl, rfl⟩
      · exact ih _ _ e h
    · rw [if_neg ha] at he
      by_cases hr : rm = true
      · rw [if_pos hr] at he
        rcases List.mem_cons.mp he with h | h
        · subst h; exact ⟨rfl, rfl⟩
        · exact ih _ _ e h
      · rw [if_neg hr] at he
        rcases List.mem_cons.mp he with h | h
        · subst h; exact ⟨rfl, rfl⟩
        · exact ih _ _ e h

theorem computeDiffAux_presence (ps : List (ChangePart Str)) (o n : Nat) :
    ∀ e ∈ computeDiffAux ps o n,
      (e.oldLine.isSome = !(e.type == DiffKind.added)) ∧
      (e.newLine.isSome = !(e.type == DiffKind.removed)) := by
  induction ps generalizing o n with
  | nil => simp [computeDiffAux]
  | cons p ps ih =>
    intro e he
    simp only [computeDiffAux] at he
    by_cases hedge : p.value = [] ∨ ((splitOnNl (stripNl p.value)).length = 1 ∧
        (splitOnNl (stripNl p.value)).headD [] = [] ∧ p.value = ['\n'])
    · rw [if_pos hedge] at he
      rcases List.mem_append.mp he with h | h
      · by_cases ha : p.added = true
        · rw [if_pos ha] at h
          simp only [List.mem_singleton] at h
          subst h; exact ⟨rfl, rfl⟩
        · rw [if_neg ha] at h
          by_cases hr : p.removed = true
          · rw [if_pos hr] at h
            simp only [List.mem_singleton] at h
            subst h; exact ⟨rfl, rfl⟩
          · rw [if_neg hr] at h
            simp only [List.mem_singleton] at h
            subst h; exact ⟨rfl, rfl⟩
      · exact ih _ _ e h
    · rw [if_neg hedge] at he
      rcases List.mem_append.mp he with h | h
      · exact pushLines_presence _ _ _ _ _ e h
      · exact ih _ _ e h

theorem pushLines_old_count (ad rm : Bool) (ls : List Str) (o n : Nat) :
    oldCount (pushLines ad rm ls o n) = if ad then 0 else ls.length := by
  induction ls generalizing o n with
  | nil => cases ad <;> simp [pushLines, oldCount]
  | cons l ls ih =>
    cases ad with
    | true => simp [pushLines, oldCount, List.countP_cons] at ih ⊢; exact ih o (n + 1)
    | false =>
      cases rm with
      | true =>
        simp [pushLines, oldCount, List.countP_cons] at ih ⊢
        rw [ih (o + 1) n]
      | false =>
        simp [pushLines, oldCount, List.countP_cons] at ih ⊢
        rw [ih (o + 1) (n + 1)]

theorem pushLines_new_count (ad rm : Bool) (ls : List Str) (o n : Nat) :
    newCount (pushLines ad rm ls o n) =
      if ad then ls.length else if rm then 0 else ls.length := by
  induction ls generalizing o n with
  | nil => cases ad <;> cases rm <;> simp [pushLines, newCount]
  | cons l ls ih =>
    cases ad with
    | true =>
      simp [pushLines, newCount, List.countP_cons] at ih ⊢
      rw [ih o (n + 1)]
    | false =>
      cases rm with
      | true =>
        simp [pushLines, newCount, List.countP_cons] at ih ⊢
        exact ih (o + 1) n
      | false =>
        simp [pushLines, newCount, List.countP_cons] at ih ⊢
        rw [ih (o + 1) (n + 1)]

theorem pushLines_old_numbers (ad rm : Bool) (ls : List Str) (o n : Nat) :
    (pushLines ad rm ls o n).filterMap DiffEntry.oldLine =
      if ad then [] else List.range' o ls.length := by
  induction ls generalizing o n with
  | nil => cases ad <;> simp [pushLines]
  | cons l ls ih =>
    cases ad with
    | true =>
      simp [pushLines, List.filterMap_cons] at ih ⊢
      exact ih o (n + 1)
    | false =>
      cases rm with
      | true =>
        simp [pushLines, List.filterMap_cons, List.range'_succ] at ih ⊢
        rw [ih (o + 1) n]
      | false =>
        simp [pushLines, List.filterMap_cons, List.range'_succ] at ih ⊢
        rw [ih (o + 1) (n + 1)]

theorem pushLines_new_numbers (ad rm : Bool) (ls : List Str) (o n : Nat) :
    (pushLines ad rm ls o n).filterMap DiffEntry.newLine =
      if ad then List.range' n ls.length
      else if rm then [] else List.range' n ls.length := by
  induction ls generalizing o n with
  | nil => cases ad <;> cases rm <;> simp [pushLines]
  | cons l ls ih =>
    cases ad with
    | true =>
      simp [pushLines, List.filterMap_cons, List.range'_succ] at ih ⊢
      rw [ih o (n + 1)]
    | false =>
      cases rm with
      | true =>
        simp [pushLines, List.filterMap_cons] at ih ⊢
        exact ih (o + 1) n
      | false =>
        simp [pushLines, List.filterMap_cons, List.range'_succ] at ih ⊢
        rw [ih (o + 1) (n + 1)]

theorem computeDiffAux_old_numbers (ps : List (ChangePart Str)) (o n : Nat) :
    (computeDiffAux ps o n).filterMap DiffEntry.oldLine =
      List.range' o (oldCount (computeDiffAux ps o n)) := by
  induction ps generalizing o n with
  | nil => simp [computeDiffAux, oldCount]
  | cons p ps ih =>
    simp only [computeDiffAux]
    by_cases hedge : p.value = [] ∨ ((splitOnNl (stripNl p.value)).length = 1 ∧
        (splitOnNl (stripNl p.value)).headD [] = [] ∧ p.value = ['\n'])
    · rw [if_pos hedge]
      by_cases ha : p.added = true
      · rw [if_pos ha, if_pos ha]
        simp only [List.filterMap_append, List.filterMap_cons,
          List.filterMap_nil, oldCount_append]
        have hcnt : oldCount [(⟨DiffKind.added, [[]], none, some n, none⟩ :
            DiffEntry)] = 0 := by
          simp [oldCount]
        rw [hcnt]
        simp [ih o (if p.removed = true then n else n + 1)]
      · rw [if_neg ha, if_neg ha]
        by_cases hr : p.removed = true
        · rw [if_pos hr, if_pos hr]
          simp only [List.filterMap_append, List.filterMap_cons,
            List.filterMap_nil, oldCount_append]
          have hcnt : oldCount [(⟨DiffKind.removed, [[]], some o, none, none⟩ :
              DiffEntry)] = 1 := by
            simp [oldCount]
          rw [hcnt]
          try simp only [List.nil_append, Option.toList]
          rw [ih (o + 1) n, Nat.add_comm 1 _, List.range'_succ]
          rfl
        · rw [if_neg hr, if_neg hr]
          simp only [List.filterMap_append, List.filterMap_cons,
            List.filterMap_nil, oldCount_append]
          have hcnt : oldCount [(⟨DiffKind.unchanged, [[]], some o, some n,
              none⟩ : DiffEntry)] = 1 := by
            simp [oldCount]
          rw [hcnt]
          try simp only [List.nil_append, Option.toList]
          rw [ih (o + 1) (n + 1), Nat.add_comm 1 _, List.range'_succ]
          rfl
    · rw [if_neg hedge]
      simp only [List.filterMap_append, oldCount_append]
      rw [pushLines_old_numbers, pushLines_old_count]
      by_cases ha : p.added = true
      · rw [if_pos ha, if_pos ha, if_pos ha]
        simp [ih o (if p.removed = true then n
          else n + (splitOnNl (stripNl p.value)).length)]
      · rw [if_neg ha, if_neg ha, if_neg ha]
        rw [ih, range'_append_one]

/-- Change parts never carry both flags (the library emits a part as
added, removed or common). -/
theorem diffLines_flags (a b : Str) :
    ∀ p ∈ diffLines a b, ¬(p.added = true ∧ p.removed = true) := by
  intro p hp
  unfold diffLines at hp
  rcases List.mem_map.mp hp with ⟨r, _, rfl⟩
  cases hk : r.1 <;> simp [hk]

theorem computeDiffAux_new_numbers (ps : List (ChangePart Str)) (o n : Nat)
    (hw : ∀ p ∈ ps, ¬(p.added = true ∧ p.removed = true)) :
    (computeDiffAux ps o n).filterMap DiffEntry.newLine =
      List.range' n (newCount (computeDiffAux ps o n)) := by
  induction ps generalizing o n with
  | nil => simp [computeDiffAux, newCount]
  | cons p ps ih =>
    have hw0 := hw p (List.mem_cons_self _ _)
    have hwr := fun q hq => hw q (List.mem_cons_of_mem _ hq)
    simp only [computeDiffAux]
    by_cases hedge : p.value = [] ∨ ((splitOnNl (stripNl p.value)).length = 1 ∧
        (splitOnNl (stripNl p.value)).headD [] = [] ∧ p.value = ['\n'])
    · rw [if_pos hedge]
      by_cases ha : p.added = true
      · have hr : p.removed = false := by
          cases hpr : p.removed
          · rfl
          · exact absurd ⟨ha, hpr⟩ hw0
        rw [if_pos ha, if_pos ha, hr]
        simp only [Bool.false_eq_true, if_false]
        simp only [List.filterMap_append, List.filterMap_cons,
          List.filterMap_nil, newCount_append]
        have hcnt : newCount [(⟨DiffKind.added, [[]], none, some n, none⟩ :
            DiffEntry)] = 1 := by
          simp [newCount]
        rw [hcnt]
        try simp only [List.nil_append, Option.toList]
        rw [ih _ (n + 1) hwr, Nat.add_comm 1 _, List.range'_succ]
        rfl
      · rw [if_neg ha, if_neg ha]
        by_cases hr : p.removed = true
        · rw [if_pos hr, if_pos hr]
          simp only [List.filterMap_append, List.filterMap_cons,
            List.filterMap_nil, newCount_append]
          have hcnt : newCount [(⟨DiffKind.removed, [[]], some o, none, none⟩ :
              DiffEntry)] = 0 := by
            simp [newCount]
          rw [hcnt]
          simp [ih (o + 1) n hwr]
        · rw [if_neg hr, if_neg hr]
          simp only [List.filterMap_append, List.filterMap_cons,
            List.filterMap_nil, newCount_append]
          have hcnt : newCount [(⟨DiffKind.unchanged, [[]], some o, some n,
              none⟩ : DiffEntry)] = 1 := by
            simp [newCount]
          rw [hcnt]
          try simp only [List.nil_append, Option.toList]
          rw [ih (o + 1) (n + 1) hwr, Nat.add_comm 1 _, List.range'_succ]
          rfl
    · rw [if_neg hedge]
      simp only [List.filterMap_append, newCount_append]
      rw [pushLines_new_numbers, pushLines_new_count]
      by_cases ha : p.added = true
      · have hr : p.removed = false := by
          cases hpr : p.removed
          · rfl
          · exact absurd ⟨ha, hpr⟩ hw0
        rw [if_pos ha, if_pos ha, if_pos ha, hr]
        simp only [Bool.false_eq_true, if_false]
        rw [ih o _ hwr, range'_append_one]
      · rw [if_neg ha, if_neg ha, if_neg ha]
        by_cases hr : p.removed = true
        · rw [if_pos hr, if_pos hr, if_pos hr]
          simp only [List.nil_append, Nat.zero_add]
          exact ih _ _ hwr
        · rw [if_neg hr, if_neg hr, if_neg hr]
          rw [ih _ _ hwr, range'_append_one]

theorem proj_filterMap_oldLine (l₁ l₂ : List DiffEntry)
    (h : l₁.map projEntry = l₂.map projEntry) :
    l₁.filterMap DiffEntry.oldLine = l₂.filterMap DiffEntry.oldLine := by
  induction l₁ generalizing l₂ with
  | nil =>
    cases l₂ with
    | nil => rfl
    | cons b l₂ => simp at h
  | cons a l₁ ih =>
    cases l₂ with
    | nil => simp at h
    | cons b l₂ =>
      simp only [List.map_cons, List.cons.injEq] at h
      have ho : a.oldLine = b.oldLine := congrArg (fun x => x.2.2.1) h.1
      simp only [List.filterMap_cons, ho, ih l₂ h.2]

theorem proj_filterMap_newLine (l₁ l₂ : List DiffEntry)
    (h : l₁.map projEntry = l₂.map projEntry) :
    l₁.filterMap DiffEntry.newLine = l₂.filterMap DiffEntry.newLine := by
  induction l₁ generalizing l₂ with
  | nil =>
    cases l₂ with
    | nil => rfl
    | cons b l₂ => simp at h
  | cons a l₁ ih =>
    cases l₂ with
    | nil => simp at h
    | cons b l₂ =>
      simp only [List.map_cons, List.cons.injEq] at h
      have hn : a.newLine = b.newLine := congrArg (fun x => x.2.2.2) h.1
      simp only [List.filterMap_cons, hn, ih l₂ h.2]

theorem proj_oldCount (l₁ l₂ : List DiffEntry)
    (h : l₁.map projEntry = l₂.map projEntry) :
    oldCount l₁ = oldCount l₂ := by
  induction l₁ generalizing l₂ with
  | nil =>
    cases l₂ with
    | nil => rfl
    | cons b l₂ => simp at h
  | cons a l₁ ih =>
    cases l₂ with
    | nil => simp at h
    | cons b l₂ =>
      simp only [List.map_cons, List.cons.injEq] at h
      have ht : a.type = b.type := congrArg Prod.fst h.1
      simp only [oldCount, List.countP_cons] at ih ⊢
      rw [ht, ih l₂ h.2]

theorem proj_newCount (l₁ l₂ : List DiffEntry)
    (h : l₁.map projEntry = l₂.map projEntry) :
    newCount l₁ = newCount l₂ := by
  induction l₁ generalizing l₂ with
  | nil =>
    cases l₂ with
    | nil => rfl
    | cons b l₂ => simp at h
  | cons a l₁ ih =>
    cases l₂ with
    | nil => simp at h
    | cons b l₂ =>
      simp only [List.map_cons, List.cons.injEq] at h
      have ht : a.type = b.type := congrArg Prod.fst h.1
      simp only [newCount, List.countP_cons] at ih ⊢
      rw [ht, ih l₂ h.2]

/-- C6: across the line diff output, old-side line numbers are present
exactly on Unchanged and Removed entries and new-side numbers exactly on
Unchanged and Added entries, and the numbers carried by the output are
exactly the consecutive runs 1, 2, … — one step per entry of the relevant
side — so each side's numbers are strictly increasing across the output. -/
theorem computeDiff_lineNumbers (a b : Str) :
    (∀ e ∈ computeDiff a b,
      (e.oldLine.isSome = !(e.type == DiffKind.added)) ∧
      (e.newLine.isSome = !(e.type == DiffKind.removed))) ∧
    (computeDiff a b).filterMap DiffEntry.oldLine =
      List.range' 1 (oldCount (computeDiff a b)) ∧
    (computeDiff a b).filterMap DiffEntry.newLine =
      List.range' 1 (newCount (computeDiff a b)) := by
  have hproj := addWordLevelDiffs_map_proj (computeDiffAux (diffLines a b) 1 1)
  refine ⟨?_, ?_, ?_⟩
  · intro e he
    rcases addWordLevelDiffs_mem_proj _ e he with ⟨e', he', hp⟩
    have hpres := computeDiffAux_presence (diffLines a b) 1 1 e' he'
    have ht : e'.type = e.type := congrArg Prod.fst hp
    have ho : e'.oldLine = e.oldLine := congrArg (fun x => x.2.2.1) hp
    have hn : e'.newLine = e.newLine := congrArg (fun x => x.2.2.2) hp
    rw [← ht, ← ho, ← hn]
    exact hpres
  · show (addWordLevelDiffs (computeDiffAux (diffLines a b) 1 1)).filterMap
        DiffEntry.oldLine = List.range' 1 (oldCount
          (addWordLevelDiffs (computeDiffAux (diffLines a b) 1 1)))
    rw [proj_filterMap_oldLine _ _ hproj, proj_oldCount _ _ hproj]
    exact computeDiffAux_old_numbers _ 1 1
  · show (addWordLevelDiffs (computeDiffAux (diffLines a b) 1 1)).filterMap
        DiffEntry.newLine = List.range' 1 (newCount
          (addWordLevelDiffs (computeDiffAux (diffLines a b) 1 1)))
    rw [proj_filterMap_newLine _ _ hproj, proj_newCount _ _ hproj]
    exact computeDiffAux_new_numbers _ 1 1 (diffLines_flags a b)

/-- Witness for C6 at a concrete pair of texts. -/
theorem computeDiff_lineNumbers_witness :
    ((⟨DiffKind.removed, [['a']], some 1, none,
        some (diffWords ['a'] ['b'])⟩ : DiffEntry).oldLine.isSome
      = !((⟨DiffKind.removed, [['a']], some 1, none,
        some (diffWords ['a'] ['b'])⟩ : DiffEntry).type == DiffKind.added)) ∧
    ((⟨DiffKind.removed, [['a']], some 1, none,
        some (diffWords ['a'] ['b'])⟩ : DiffEntry).newLine.isSome
      = !((⟨DiffKind.removed, [['a']], some 1, none,
        some (diffWords ['a'] ['b'])⟩ : DiffEntry).type == DiffKind.removed)) :=
  (computeDiff_lineNumbers ['a'] ['b']).1 _ (by decide)

/-- Witness for C7 at the one-line text "x". -/
theorem computeDiff_self_witness :
    (⟨DiffKind.unchanged, [['x']], some 1, some 1, none⟩ : DiffEntry).type
        = DiffKind.unchanged ∧
    (⟨DiffKind.unchanged, [['x']], some 1, some 1, none⟩ : DiffEntry).oldLine
      = (⟨DiffKind.unchanged, [['x']], some 1, some 1,
          none⟩ : DiffEntry).newLine :=
  computeDiff_self ['x'] _ (by decide)

/-! Word-level diff facts. -/

theorem tokenizeWords_flatten (s : Str) : (tokenizeWords s).flatten = s := by
  induction s with
  | nil => rfl
  | cons c cs ih =>
    rcases ht : tokenizeWords cs with _ | ⟨t, rest⟩
    · have hstep : tokenizeWords (c :: cs) = [[c]] := by
        simp only [tokenizeWords, ht]
      rw [ht] at ih
      simp only [List.flatten_nil] at ih
      rw [hstep]
      simp [← ih]
    · rcases t with _ | ⟨d, t'⟩
      · have hstep : tokenizeWords (c :: cs) = [c] :: [] :: rest := by
          simp only [tokenizeWords, ht]
        rw [ht] at ih
        rw [hstep]
        simp only [List.flatten_cons] at ih ⊢
        simp [ih]
      · by_cases hw : isWordChar c = isWordChar d
        · have hstep : tokenizeWords (c :: cs) = (c :: d :: t') :: rest := by
            simp only [tokenizeWords, ht]
            rw [if_pos hw]
          rw [ht] at ih
          rw [hstep]
          simp only [List.flatten_cons] at ih ⊢
          simp [ih]
        · have hstep : tokenizeWords (c :: cs) = [c] :: (d :: t') :: rest := by
            simp only [tokenizeWords, ht]
            rw [if_neg hw]
          rw [ht] at ih
          rw [hstep]
          simp only [List.flatten_cons] at ih ⊢
          simp [ih]

theorem runs_value_old (rs : List (DiffKind × List Str)) :
    (((rs.map (fun r => (⟨r.2.flatten, r.1 == DiffKind.added,
        r.1 == DiffKind.removed⟩ : ChangePart Str))).filter
      (fun p => !p.added)).map (fun p => p.value)).flatten
    = (runsOld rs).flatten := by
  induction rs with
  | nil => rfl
  | cons r rest ih =>
    rcases r with ⟨k, ts⟩
    by_cases hk : k = DiffKind.added
    · subst hk
      simp [runsOld_cons, ih]
    · simp [runsOld_cons, hk, ih]

theorem runs_value_new (rs : List (DiffKind × List Str)) :
    (((rs.map (fun r => (⟨r.2.flatten, r.1 == DiffKind.added,
        r.1 == DiffKind.removed⟩ : ChangePart Str))).filter
      (fun p => !p.removed)).map (fun p => p.value)).flatten
    = (runsNew rs).flatten := by
  induction rs with
  | nil => rfl
  | cons r rest ih =>
    rcases r with ⟨k, ts⟩
    by_cases hk : k = DiffKind.removed
    · subst hk
      simp [runsNew_cons, ih]
    · simp [runsNew_cons, hk, ih]

/-- Reconstruction for the modelled word diff: the Unchanged-or-Removed
parts concatenate to the old line and the Unchanged-or-Added parts to the
new line. -/
theorem diffWords_reconstruction (o n : Str) :
    (((diffWords o n).filter (fun p => !p.added)).map
      (fun p => p.value)).flatten = o ∧
    (((diffWords o n).filter (fun p => !p.removed)).map
      (fun p => p.value)).flatten = n := by
  constructor
  · show (((((groupRuns (editScript (tokenizeWords o) (tokenizeWords n)))).map
        (fun r => (⟨r.2.flatten, r.1 == DiffKind.added,
          r.1 == DiffKind.removed⟩ : ChangePart Str))).filter
        (fun p => !p.added)).map (fun p => p.value)).flatten = o
    rw [runs_value_old, groupRuns_old, editScript_old, tokenizeWords_flatten]
  · show (((((groupRuns (editScript (tokenizeWords o) (tokenizeWords n)))).map
        (fun r => (⟨r.2.flatten, r.1 == DiffKind.added,
          r.1 == DiffKind.removed⟩ : ChangePart Str))).filter
        (fun p => !p.removed)).map (fun p => p.value)).flatten = n
    rw [runs_value_new, groupRuns_new, editScript_new, tokenizeWords_flatten]

/-! Adjacency of removed/added entries in the word-diff post-pass. -/

theorem awlAux_head_shape (x : DiffEntry) (r : List DiffEntry) :
    (awlAux x r).head? = some x ∨
      ∃ wd, (awlAux x r).head? = some (setWd x wd) := by
  cases r with
  | nil => exact Or.inl rfl
  | cons y rest =>
    simp only [awlAux]
    by_cases h : x.type = DiffKind.removed ∧ y.type = DiffKind.added
    · rw [if_pos h]
      exact Or.inr ⟨_, rfl⟩
    · rw [if_neg h]
      exact Or.inl rfl

theorem awlAux_head_type (x : DiffEntry) (r : List DiffEntry) (e : DiffEntry)
    (he : (awlAux x r).head? = some e) : e.type = x.type := by
  rcases awlAux_head_shape x r with h | ⟨wd, h⟩
  · rw [h] at he
    cases he
    rfl
  · rw [h] at he
    cases he
    rfl

theorem awlAux_head_of_not_removed (x : DiffEntry) (r : List DiffEntry)
    (h : ¬x.type = DiffKind.removed) : (awlAux x r).head? = some x := by
  cases r with
  | nil => rfl
  | cons y rest =>
    simp only [awlAux]
    rw [if_neg (fun hc => h hc.1)]
    rfl

theorem awlAux_ne_nil (x : DiffEntry) (r : List DiffEntry) :
    awlAux x r ≠ [] := by
  cases r with
  | nil => simp [awlAux]
  | cons y rest =>
    simp only [awlAux]
    by_cases h : x.type = DiffKind.removed ∧ y.type = DiffKind.added
    · rw [if_pos h]
      simp
    · rw [if_neg h]
      simp

/-- In the output of the forward scan, a removed entry immediately followed
by an added entry carries — and shares — the word diff of the two first
lines. -/
theorem awlAux_adjacent (l : List DiffEntry) (e0 : DiffEntry) (i : Nat)
    (e1 e2 : DiffEntry)
    (h1 : (awlAux e0 l)[i]? = some e1)
    (h2 : (awlAux e0 l)[i + 1]? = some e2)
    (hr : e1.type = DiffKind.removed) (ha : e2.type = DiffKind.added) :
    e1.wordDiffs = some (diffWords (headLine e1) (headLine e2)) ∧
    e2.wordDiffs = some (diffWords (headLine e1) (headLine e2)) := by
  induction l generalizing e0 i with
  | nil =>
    exfalso
    cases i with
    | zero => simp [awlAux] at h2
    | succ j => simp [awlAux] at h1
  | cons en rest ih =>
    simp only [awlAux] at h1 h2
    by_cases hp : e0.type = DiffKind.removed ∧ en.type = DiffKind.added
    · rw [if_pos hp] at h1 h2
      cases i with
      | zero =>
        rw [List.getElem?_cons_zero] at h1
        cases h1
        rw [List.getElem?_cons_succ] at h2
        have hh : (awlAux (setWd en (diffWords (headLine e0) (headLine en)))
            rest).head? = some (setWd en (diffWords (headLine e0)
              (headLine en))) := by
          apply awlAux_head_of_not_removed
          show en.type ≠ DiffKind.removed
          rw [hp.2]
          intro hc
          cases hc
        have h2' : (awlAux (setWd en (diffWords (headLine e0) (headLine en)))
            rest).head? = some e2 := by
          cases hrest : awlAux (setWd en (diffWords (headLine e0)
              (headLine en))) rest with
          | nil => exact absurd hrest (awlAux_ne_nil _ _)
          | cons z zs =>
            rw [hrest] at h2
            rw [List.getElem?_cons_zero] at h2
            rw [List.head?_cons]
            exact h2
        rw [hh] at h2'
        cases h2'
        constructor
        · rfl
        · rfl
      | succ j =>
        rw [List.getElem?_cons_succ] at h1 h2
        exact ih _ j h1 h2
    · rw [if_neg hp] at h1 h2
      cases i with
      | zero =>
        rw [List.getElem?_cons_zero] at h1
        cases h1
        rw [List.getElem?_cons_succ] at h2
        have h2' : (awlAux en rest).head? = some e2 := by
          cases hrest : awlAux en rest with
          | nil => exact absurd hrest (awlAux_ne_nil en rest)
          | cons z zs =>
            rw [hrest] at h2
            rw [List.getElem?_cons_zero] at h2
            rw [List.head?_cons]
            exact h2
        have : e2.type = en.type := awlAux_head_type en rest e2 h2'
        exact absurd ⟨hr, this ▸ ha⟩ hp
      | succ j =>
        rw [List.getElem?_cons_succ] at h1 h2
        exact ih en j h1 h2

/-- Shared helper: adjacent removed/added entries of `computeDiff` both
carry the word diff of their first lines. -/
theorem computeDiff_adjacent (a b : Str) (i : Nat) (e1 e2 : DiffEntry)
    (h1 : (computeDiff a b)[i]? = some e1)
    (h2 : (computeDiff a b)[i + 1]? = some e2)
    (hr : e1.type = DiffKind.removed) (ha : e2.type = DiffKind.added) :
    e1.wordDiffs = some (diffWords (headLine e1) (headLine e2)) ∧
    e2.wordDiffs = some (diffWords (headLine e1) (headLine e2)) := by
  rcases hl : computeDiffAux (diffLines a b) 1 1 with _ | ⟨e0, rest⟩
  · exfalso
    have hnil : computeDiff a b = [] := by
      show addWordLevelDiffs (computeDiffAux (diffLines a b) 1 1) = []
      rw [hl]
      rfl
    rw [hnil] at h1
    simp at h1
  · have hout : computeDiff a b = awlAux e0 rest := by
      show addWordLevelDiffs (computeDiffAux (diffLines a b) 1 1) = _
      rw [hl]
      rfl
    rw [hout] at h1 h2
    exact awlAux_adjacent rest e0 i e1 e2 h1 h2 hr ha

/-- C2: whenever a Removed entry is immediately followed by an Added entry
in the line diff output, both carry the identical word diff, and that word
diff's Unchanged-or-Removed parts concatenate exactly to the removed line
while its Unchanged-or-Added parts concatenate exactly to the added line. -/
theorem computeDiff_wordDiff_pairs (a b : Str) (i : Nat) (e1 e2 : DiffEntry)
    (h1 : (computeDiff a b)[i]? = some e1)
    (h2 : (computeDiff a b)[i + 1]? = some e2)
    (hr : e1.type = DiffKind.removed) (ha : e2.type = DiffKind.added) :
    e1.wordDiffs = e2.wordDiffs ∧
    e1.wordDiffs = some (diffWords (headLine e1) (headLine e2)) ∧
    (((diffWords (headLine e1) (headLine e2)).filter
        (fun p => !p.added)).map (fun p => p.value)).flatten = headLine e1 ∧
    (((diffWords (headLine e1) (headLine e2)).filter
        (fun p => !p.removed)).map (fun p => p.value)).flatten = headLine e2 := by
  have hmain := computeDiff_adjacent a b i e1 e2 h1 h2 hr ha
  refine ⟨?_, hmain.1, (diffWords_reconstruction _ _).1,
    (diffWords_reconstruction _ _).2⟩
  rw [hmain.1, hmain.2]

/-- Witness for C2 on the pair "a" / "b" at position 0. -/
theorem computeDiff_wordDiff_pairs_witness :
    (⟨DiffKind.removed, [['a']], some 1, none,
        some (diffWords ['a'] ['b'])⟩ : DiffEntry).wordDiffs
      = (⟨DiffKind.added, [['b']], none, some 1,
        some (diffWords ['a'] ['b'])⟩ : DiffEntry).wordDiffs ∧
    (⟨DiffKind.removed, [['a']], some 1, none,
        some (diffWords ['a'] ['b'])⟩ : DiffEntry).wordDiffs
      = some (diffWords
          (headLine ⟨DiffKind.removed, [['a']], some 1, none,
            some (diffWords ['a'] ['b'])⟩)
          (headLine ⟨DiffKind.added, [['b']], none, some 1,
            some (diffWords ['a'] ['b'])⟩)) ∧
    (((diffWords
        (headLine ⟨DiffKind.removed, [['a']], some 1, none,
          some (diffWords ['a'] ['b'])⟩)
        (headLine ⟨DiffKind.added, [['b']], none, some 1,
          some (diffWords ['a'] ['b'])⟩)).filter
        (fun p => !p.added)).map (fun p => p.value)).flatten
      = headLine ⟨DiffKind.removed, [['a']], some 1, none,
          some (diffWords ['a'] ['b'])⟩ ∧
    (((diffWords
        (headLine ⟨DiffKind.removed, [['a']], some 1, none,
          some (diffWords ['a'] ['b'])⟩)
        (headLine ⟨DiffKind.added, [['b']], none, some 1,
          some (diffWords ['a'] ['b'])⟩)).filter
        (fun p => !p.removed)).map (fun p => p.value)).flatten
      = headLine ⟨DiffKind.added, [['b']], none, some 1,
          some (diffWords ['a'] ['b'])⟩ :=
  computeDiff_wordDiff_pairs ['a'] ['b'] 0 _ _ (by decide) (by decide)
    (by decide) (by decide)

/-! Entries that are in neither member position of a replacement pair keep
their (absent) word diff. -/

theorem getElem?_zero_of_head? {α : Type} {l : List α} {x : α}
    (h : l.head? = some x) : l[0]? = some x := by
  cases l with
  | nil => cases h
  | cons a l =>
    rw [List.head?_cons] at h
    rw [List.getElem?_cons_zero]
    exact h

theorem awl_char_aux (l : List DiffEntry) : ∀ (e0 : DiffEntry) (i : Nat)
    (e : DiffEntry),
    (∀ q ∈ l, q.wordDiffs = none) →
    (awlAux e0 l)[i]? = some e →
    (∀ y, (awlAux e0 l)[i + 1]? = some y →
      ¬(e.type = DiffKind.removed ∧ y.type = DiffKind.added)) →
    (∀ j x, i = j + 1 → (awlAux e0 l)[j]? = some x →
      ¬(x.type = DiffKind.removed ∧ e.type = DiffKind.added)) →
    e.wordDiffs = if i = 0 then e0.wordDiffs else none := by
  induction l with
  | nil =>
    intro e0 i e _ he _ _
    cases i with
    | zero =>
      simp only [awlAux, List.getElem?_cons_zero] at he
      cases he
      simp
    | succ j =>
      exfalso
      simp [awlAux] at he
  | cons en rest ih =>
    intro e0 i e hl he hright hleft
    have hlr := fun q hq => hl q (List.mem_cons_of_mem _ hq)
    have hen : en.wordDiffs = none := hl en (List.mem_cons_self _ _)
    by_cases hp : e0.type = DiffKind.removed ∧ en.type = DiffKind.added
    · have hout : awlAux e0 (en :: rest)
          = setWd e0 (diffWords (headLine e0) (headLine en)) ::
            awlAux (setWd en (diffWords (headLine e0) (headLine en))) rest := by
        simp only [awlAux]
        rw [if_pos hp]
      rw [hout] at he hright hleft
      cases i with
      | zero =>
        rw [List.getElem?_cons_zero] at he
        cases he
        exfalso
        have hh := awlAux_head_of_not_removed
          (setWd en (diffWords (headLine e0) (headLine en))) rest
          (show (setWd en (diffWords (headLine e0) (headLine en))).type
              ≠ DiffKind.removed by
            show en.type ≠ DiffKind.removed
            rw [hp.2]
            intro hc
            cases hc)
        exact hright (setWd en (diffWords (headLine e0) (headLine en))) (by
            rw [List.getElem?_cons_succ]
            exact getElem?_zero_of_head? hh)
          ⟨hp.1, hp.2⟩
      | succ j =>
        rw [List.getElem?_cons_succ] at he
        cases j with
        | zero =>
          exfalso
          have hhead : e.type
              = (setWd en (diffWords (headLine e0) (headLine en))).type := by
            apply awlAux_head_type _ rest e
            cases hrest : awlAux (setWd en (diffWords (headLine e0)
                (headLine en))) rest with
            | nil => exact absurd hrest (awlAux_ne_nil _ _)
            | cons z zs =>
              rw [hrest] at he
              rw [List.getElem?_cons_zero] at he
              rw [List.head?_cons]
              exact he
          refine hleft 0 _ rfl List.getElem?_cons_zero ⟨hp.1, ?_⟩
          rw [hhead]
          exact hp.2
        | succ j' =>
          have hres := ih (setWd en (diffWords (headLine e0) (headLine en)))
            (j' + 1) e hlr he ?_ ?_
          · rw [hres]
            simp
          · intro y hy
            exact hright y (by rw [List.getElem?_cons_succ]; exact hy)
          · intro k x hk hx
            have hk' : j' = k := by omega
            subst hk'
            exact hleft (j' + 1) x rfl
              (by rw [List.getElem?_cons_succ]; exact hx)
    · have hout : awlAux e0 (en :: rest) = e0 :: awlAux en rest := by
        simp only [awlAux]
        rw [if_neg hp]
      rw [hout] at he hright hleft
      cases i with
      | zero =>
        rw [List.getElem?_cons_zero] at he
        cases he
        simp
      | succ j =>
        rw [List.getElem?_cons_succ] at he
        have hres := ih en j e hlr he ?_ ?_
        · rw [hres]
          cases j with
          | zero => simp [hen]
          | succ j' => simp
        · intro y hy
          exact hright y (by rw [List.getElem?_cons_succ]; exact hy)
        · intro k x hk hx
          subst hk
          exact hleft (k + 1) x rfl
            (by rw [List.getElem?_cons_succ]; exact hx)

theorem awl_none (l : List DiffEntry) (hl : ∀ q ∈ l, q.wordDiffs = none)
    (i : Nat) (e : DiffEntry)
    (he : (addWordLevelDiffs l)[i]? = some e)
    (hright : ∀ y, (addWordLevelDiffs l)[i + 1]? = some y →
      ¬(e.type = DiffKind.removed ∧ y.type = DiffKind.added))
    (hleft : ∀ j x, i = j + 1 → (addWordLevelDiffs l)[j]? = some x →
      ¬(x.type = DiffKind.removed ∧ e.type = DiffKind.added)) :
    e.wordDiffs = none := by
  cases l with
  | nil => simp [addWordLevelDiffs] at he
  | cons e0 rest =>
    have h := awl_char_aux rest e0 i e
      (fun q hq => hl q (List.mem_cons_of_mem _ hq)) he hright hleft
    rw [h]
    by_cases hi : i = 0
    · rw [if_pos hi]
      exact hl e0 (List.mem_cons_self _ _)
    · rw [if_neg hi]

theorem pushLines_wd_none (ad rm : Bool) (ls : List Str) (o n : Nat) :
    ∀ e ∈ pushLines ad rm ls o n, e.wordDiffs = none := by
  induction ls generalizing o n with
  | nil => simp [pushLines]
  | cons l ls ih =>
    intro e he
    simp only [pushLines] at he
    by_cases ha : ad = true
    · rw [if_pos ha] at he
      rcases List.mem_cons.mp he with h | h
      · subst h; rfl
      · exact ih _ _ e h
    · rw [if_neg ha] at he
      by_cases hr : rm = true
      · rw [if_pos hr] at he
        rcases List.mem_cons.mp he with h | h
        · subst h; rfl
        · exact ih _ _ e h
      · rw [if_neg hr] at he
        rcases List.mem_cons.mp he with h | h
        · subst h; rfl
        · exact ih _ _ e h

theorem computeDiffAux_wd_none (ps : List (ChangePart Str)) (o n : Nat) :
    ∀ e ∈ computeDiffAux ps o n, e.wordDiffs = none := by
  induction ps generalizing o n with
  | nil => simp [computeDiffAux]
  | cons p ps ih =>
    intro e he
    simp only [computeDiffAux] at he
    by_cases hedge : p.value = [] ∨ ((splitOnNl (stripNl p.value)).length = 1 ∧
        (splitOnNl (stripNl p.value)).headD [] = [] ∧ p.value = ['\n'])
    · rw [if_pos hedge] at he
      rcases List.mem_append.mp he with h | h
      · by_cases ha : p.added = true
        · rw [if_pos ha] at h
          simp only [List.mem_singleton] at h
          subst h; rfl
        · rw [if_neg ha] at h
          by_cases hr : p.removed = true
          · rw [if_pos hr] at h
            simp only [List.mem_singleton] at h
            subst h; rfl
          · rw [if_neg hr] at h
            simp only [List.mem_singleton] at h
            subst h; rfl
      · exact ih _ _ e h
    · rw [if_neg hedge] at he
      rcases List.mem_append.mp he with h | h
      · exact pushLines_wd_none _ _ _ _ _ e h
      · exact ih _ _ e h

theorem getElem?_lt_length {α : Type} {l : List α} {i : Nat} {a : α}
    (h : l[i]? = some a) : i < l.length := by
  by_contra hc
  rw [List.getElem?_eq_none (by omega)] at h
  cases h

/-- Counterexample to C3 as stated: for old text "a\nb" against new text
"c" the changed region has two Removed entries before one Added entry; the
FIRST Removed entry receives no word diff, while the LAST Removed entry —
an unpaired-side entry under the claim's reading — does receive one. -/
theorem region_first_removed_counterexample :
    (computeDiff ['a', '\n', 'b'] ['c']).map
        (fun e => (e.type, e.wordDiffs.isSome))
      = [(DiffKind.removed, false), (DiffKind.removed, true),
         (DiffKind.added, true)] := by decide

/-- C3 amended: in a changed region formed by a contiguous run of Removed
entries followed by a contiguous run of Added entries, exactly the LAST
Removed entry and the FIRST Added entry receive the word diff (and share
it); every other entry of the region receives none. -/
theorem computeDiff_region_wordDiffs (a b : Str)
    (pre rpre arest post : List DiffEntry) (rlast afirst : DiffEntry)
    (hsplit : computeDiff a b
      = pre ++ (rpre ++ rlast :: afirst :: (arest ++ post)))
    (hrpre : ∀ e ∈ rpre, e.type = DiffKind.removed)
    (hrlast : rlast.type = DiffKind.removed)
    (hafirst : afirst.type = DiffKind.added)
    (harest : ∀ e ∈ arest, e.type = DiffKind.added) :
    (∀ e ∈ rpre, e.wordDiffs = none) ∧
    (∀ e ∈ arest, e.wordDiffs = none) ∧
    rlast.wordDiffs = some (diffWords (headLine rlast) (headLine afirst)) ∧
    afirst.wordDiffs = rlast.wordDiffs := by
  have hnone : ∀ q ∈ computeDiffAux (diffLines a b) 1 1, q.wordDiffs = none :=
    computeDiffAux_wd_none _ 1 1
  have houtdef : computeDiff a b
      = addWordLevelDiffs (computeDiffAux (diffLines a b) 1 1) := rfl
  have hsplit' : addWordLevelDiffs (computeDiffAux (diffLines a b) 1 1)
      = pre ++ (rpre ++ rlast :: afirst :: (arest ++ post)) := by
    rw [← houtdef]
    exact hsplit
  refine ⟨?_, ?_, ?_, ?_⟩
  · intro e he
    rcases List.getElem?_of_mem he with ⟨j, hj⟩
    have hjlt : j < rpre.length := getElem?_lt_length hj
    have hi : (addWordLevelDiffs (computeDiffAux (diffLines a b) 1 1))[
        pre.length + j]? = some e := by
      rw [hsplit', List.getElem?_append_right (Nat.le_add_right _ _),
        Nat.add_sub_cancel_left, List.getElem?_append_left hjlt]
      exact hj
    have hi1 : ∃ y, (addWordLevelDiffs (computeDiffAux (diffLines a b) 1 1))[
        pre.length + j + 1]? = some y ∧ y.type = DiffKind.removed := by
      by_cases hj1 : j + 1 < rpre.length
      · refine ⟨rpre[j + 1], ?_, hrpre _ (List.getElem_mem hj1)⟩
        rw [hsplit', show pre.length + j + 1 = pre.length + (j + 1) by omega,
          List.getElem?_append_right (Nat.le_add_right _ _),
          Nat.add_sub_cancel_left, List.getElem?_append_left hj1]
        exact List.getElem?_eq_getElem hj1
      · have hj1e : j + 1 = rpre.length := by omega
        refine ⟨rlast, ?_, hrlast⟩
        rw [hsplit', show pre.length + j + 1 = pre.length + (j + 1) by omega,
          List.getElem?_append_right (Nat.le_add_right _ _),
          Nat.add_sub_cancel_left, hj1e,
          List.getElem?_append_right (le_refl _), Nat.sub_self]
        exact List.getElem?_cons_zero
    rcases hi1 with ⟨y0, hy0, hy0r⟩
    apply awl_none (computeDiffAux (diffLines a b) 1 1) hnone
      (pre.length + j) e hi
    · intro y hy hcon
      rw [hy0] at hy
      cases hy
      rw [hy0r] at hcon
      cases hcon.2
    · intro k x hk hx hcon
      rw [hrpre e he] at hcon
      cases hcon.2
  · intro e he
    rcases List.getElem?_of_mem he with ⟨j, hj⟩
    have hjlt : j < arest.length := getElem?_lt_length hj
    have hi : (addWordLevelDiffs (computeDiffAux (diffLines a b) 1 1))[
        pre.length + (rpre.length + (j + 2))]? = some e := by
      rw [hsplit', List.getElem?_append_right (Nat.le_add_right _ _),
        Nat.add_sub_cancel_left,
        List.getElem?_append_right (Nat.le_add_right _ _),
        Nat.add_sub_cancel_left,
        show j + 2 = (j + 1) + 1 by omega, List.getElem?_cons_succ,
        List.getElem?_cons_succ, List.getElem?_append_left hjlt]
      exact hj
    apply awl_none (computeDiffAux (diffLines a b) 1 1) hnone
      (pre.length + (rpre.length + (j + 2))) e hi
    · intro y hy hcon
      rw [harest e he] at hcon
      cases hcon.1
    · intro k x hk hx hcon
      have hk' : k = pre.length + (rpre.length + (j + 1)) := by omega
      subst hk'
      have hx0 : ∃ x0, (addWordLevelDiffs (computeDiffAux (diffLines a b)
          1 1))[pre.length + (rpre.length + (j + 1))]? = some x0 ∧
          x0.type = DiffKind.added := by
        cases j with
        | zero =>
          refine ⟨afirst, ?_, hafirst⟩
          rw [hsplit', List.getElem?_append_right (Nat.le_add_right _ _),
            Nat.add_sub_cancel_left,
            List.getElem?_append_right (Nat.le_add_right _ _),
            Nat.add_sub_cancel_left, List.getElem?_cons_succ]
          exact List.getElem?_cons_zero
        | succ j'' =>
          have hj'' : j'' < arest.length := by omega
          refine ⟨arest[j''], ?_, harest _ (List.getElem_mem hj'')⟩
          rw [hsplit', List.getElem?_append_right (Nat.le_add_right _ _),
            Nat.add_sub_cancel_left,
            List.getElem?_append_right (Nat.le_add_right _ _),
            Nat.add_sub_cancel_left,
            show j'' + 1 + 1 = (j'' + 1) + 1 by omega,
            List.getElem?_cons_succ, List.getElem?_cons_succ,
            List.getElem?_append_left hj'']
          exact List.getElem?_eq_getElem hj''
      rcases hx0 with ⟨x0, hx0g, hx0a⟩
      rw [hx0g] at hx
      cases hx
      rw [hx0a] at hcon
      cases hcon.1
  · have h3a : (computeDiff a b)[pre.length + rpre.length]? = some rlast := by
      rw [hsplit, List.getElem?_append_right (Nat.le_add_right _ _),
        Nat.add_sub_cancel_left, List.getElem?_append_right (le_refl _),
        Nat.sub_self]
      exact List.getElem?_cons_zero
    have h3b : (computeDiff a b)[pre.length + rpre.length + 1]?
        = some afirst := by
      rw [hsplit, show pre.length + rpre.length + 1
          = pre.length + (rpre.length + 1) by omega,
        List.getElem?_append_right (Nat.le_add_right _ _),
        Nat.add_sub_cancel_left,
        List.getElem?_append_right (Nat.le_add_right _ _),
        Nat.add_sub_cancel_left, List.getElem?_cons_succ]
      exact List.getElem?_cons_zero
    exact (computeDiff_adjacent a b _ rlast afirst h3a h3b hrlast hafirst).1
  · have h3a : (computeDiff a b)[pre.length + rpre.length]? = some rlast := by
      rw [hsplit, List.getElem?_append_right (Nat.le_add_right _ _),
        Nat.add_sub_cancel_left, List.getElem?_append_right (le_refl _),
        Nat.sub_self]
      exact List.getElem?_cons_zero
    have h3b : (computeDiff a b)[pre.length + rpre.length + 1]?
        = some afirst := by
      rw [hsplit, show pre.length + rpre.length + 1
          = pre.length + (rpre.length + 1) by omega,
        List.getElem?_append_right (Nat.le_add_right _ _),
        Nat.add_sub_cancel_left,
        List.getElem?_append_right (Nat.le_add_right _ _),
        Nat.add_sub_cancel_left, List.getElem?_cons_succ]
      exact List.getElem?_cons_zero
    have hadj := computeDiff_adjacent a b _ rlast afirst h3a h3b hrlast hafirst
    rw [hadj.1, hadj.2]

/-- Witness for the amended C3 on old text "a\nb" against new text "c". -/
theorem computeDiff_region_wordDiffs_witness :
    (∀ e ∈ [(⟨DiffKind.removed, [['a']], some 1, none, none⟩ : DiffEntry)],
      e.wordDiffs = none) ∧
    (∀ e ∈ ([] : List DiffEntry), e.wordDiffs = none) ∧
    (⟨DiffKind.removed, [['b']], some 2, none,
        some (diffWords ['b'] ['c'])⟩ : DiffEntry).wordDiffs
      = some (diffWords
          (headLine ⟨DiffKind.removed, [['b']], some 2, none,
            some (diffWords ['b'] ['c'])⟩)
          (headLine ⟨DiffKind.added, [['c']], none, some 1,
            some (diffWords ['b'] ['c'])⟩)) ∧
    (⟨DiffKind.added, [['c']], none, some 1,
        some (diffWords ['b'] ['c'])⟩ : DiffEntry).wordDiffs
      = (⟨DiffKind.removed, [['b']], some 2, none,
          some (diffWords ['b'] ['c'])⟩ : DiffEntry).wordDiffs :=
  computeDiff_region_wordDiffs ['a', '\n', 'b'] ['c'] []
    [⟨DiffKind.removed, [['a']], some 1, none, none⟩] [] []
    ⟨DiffKind.removed, [['b']], some 2, none, some (diffWords ['b'] ['c'])⟩
    ⟨DiffKind.added, [['c']], none, some 1, some (diffWords ['b'] ['c'])⟩
    (by decide) (by decide) (by decide) (by decide) (by decide)

/-! Step-shape lemmas for the `splitIntoBlocks` scanner. -/

theorem flushState_current (st : SplitState) : (flushState st).current = [] := by
  unfold flushState
  by_cases h : st.current = [] <;> simp [h]

theorem flushState_inFence (st : SplitState) :
    (flushState st).inFence = st.inFence := by
  unfold flushState
  by_cases h : st.current = [] <;> simp [h]

theorem flushState_blocks_shift (st : SplitState) (b : List Str) :
    flushState {st with blocks := b ++ st.blocks}
      = {flushState st with blocks := b ++ (flushState st).blocks} := by
  unfold flushState
  by_cases h : st.current = [] <;> simp [h]

theorem splitStep_fence_acc (st : SplitState) (line : Str)
    (hf : st.inFence = true)
    (hc : closesFence st.fenceChar st.fenceLen line = false) :
    splitStep st line = {st with current := st.current ++ [line]} := by
  unfold splitStep
  rw [hf]
  simp [hc]

theorem splitStep_close (st : SplitState) (line : Str)
    (hf : st.inFence = true)
    (hc : closesFence st.fenceChar st.fenceLen line = true) :
    splitStep st line
      = ⟨st.blocks ++ [joinLines (st.current ++ [line])], [],
          false, ' ', 0⟩ := by
  unfold splitStep
  rw [hf]
  simp [hc, flushState]

theorem splitStep_open (st : SplitState) (line : Str) (c : Char) (n : Nat)
    (hf : st.inFence = false) (ho : fenceOpen line = some (c, n)) :
    splitStep st line = ⟨(flushState st).blocks, [line], true, c, n⟩ := by
  unfold splitStep
  rw [hf]
  simp only [Bool.false_eq_true, if_false]
  rw [ho]
  simp [flushState_current]

theorem splitStep_blank (st : SplitState) (line : Str)
    (hf : st.inFence = false) (ho : fenceOpen line = none)
    (hb : isBlank line = true) :
    splitStep st line = flushState st := by
  unfold splitStep
  rw [hf]
  simp only [Bool.false_eq_true, if_false]
  rw [ho]
  simp [hb]

theorem splitStep_push (st : SplitState) (line : Str)
    (hf : st.inFence = false) (ho : fenceOpen line = none)
    (hb : isBlank line = false) :
    splitStep st line =
      if pushKeep st.current line then
        {st with current := st.current ++ [line]}
      else {flushState st with current := [line]} := by
  unfold splitStep pushKeep
  rw [hf]
  simp only [Bool.false_eq_true, if_false]
  rw [ho]
  simp only [hb, Bool.false_eq_true, if_false]
  cases hl : st.current.getLast? with
  | none => rfl
  | some prev =>
    by_cases h1 : (isTableRow line && isTableRow prev) = true
    · simp [h1]
    · by_cases h2 : (isBlockQuote line && isBlockQuote prev) = true
      · simp [h1, h2]
      · by_cases h3 : ((isListItem prev ||
            (isIndented prev && decide (st.current.length ≥ 2))) &&
            (isListItem line || isIndented line)) = true
        · simp [h1, h2, h3]
        · by_cases h4 : ((isTableRow line && !isTableRow prev) ||
              (isBlockQuote line && !isBlockQuote prev) ||
              (isTableRow prev && !isTableRow line) ||
              (isBlockQuote prev && !isBlockQuote line)) = true
          · simp [h1, h2, h3, h4, flushState_current]
          · simp [h1, h2, h3, h4]

theorem splitStep_blocks_shift (st : SplitState) (b : List Str) (line : Str) :
    splitStep {st with blocks := b ++ st.blocks} line
      = {splitStep st line with blocks := b ++ (splitStep st line).blocks} := by
  by_cases hf : st.inFence = true
  · by_cases hc : closesFence st.fenceChar st.fenceLen line = true
    · rw [splitStep_close st line hf hc,
        splitStep_close {st with blocks := b ++ st.blocks} line hf hc]
      simp
    · rw [splitStep_fence_acc st line hf (by simpa using hc),
        splitStep_fence_acc {st with blocks := b ++ st.blocks} line hf
          (by simpa using hc)]
  · have hf' : st.inFence = false := by simpa using hf
    cases ho : fenceOpen line with
    | some cn =>
      rw [splitStep_open st line cn.1 cn.2 hf' (by rw [ho]),
        splitStep_open {st with blocks := b ++ st.blocks} line cn.1 cn.2 hf'
          (by rw [ho]),
        flushState_blocks_shift]
    | none =>
      by_cases hb : isBlank line = true
      · rw [splitStep_blank st line hf' ho hb,
          splitStep_blank {st with blocks := b ++ st.blocks} line hf' ho hb,
          flushState_blocks_shift]
      · have hb' : isBlank line = false := by simpa using hb
        rw [splitStep_push st line hf' ho hb',
          splitStep_push {st with blocks := b ++ st.blocks} line hf' ho hb']
        by_cases hk : pushKeep st.current line = true
        · rw [show ({st with blocks := b ++ st.blocks} :
              SplitState).current = st.current from rfl, if_pos hk, if_pos hk]
        · rw [show ({st with blocks := b ++ st.blocks} :
              SplitState).current = st.current from rfl, if_neg hk, if_neg hk,
            flushState_blocks_shift]

theorem foldl_splitStep_blocks (ls : List Str) (st : SplitState)
    (b : List Str) :
    ls.foldl splitStep {st with blocks := b ++ st.blocks}
      = {ls.foldl splitStep st with
          blocks := b ++ (ls.foldl splitStep st).blocks} := by
  induction ls generalizing st with
  | nil => rfl
  | cons l ls ih =>
    simp only [List.foldl_cons]
    rw [splitStep_blocks_shift]
    exact ih (splitStep st l)

theorem foldl_fence_body (body : List Str) (st : SplitState)
    (hf : st.inFence = true)
    (hbody : ∀ l ∈ body, closesFence st.fenceChar st.fenceLen l = false) :
    body.foldl splitStep st = {st with current := st.current ++ body} := by
  induction body generalizing st with
  | nil => simp
  | cons l body ih =>
    simp only [List.foldl_cons]
    rw [splitStep_fence_acc st l hf (hbody l (List.mem_cons_self _ _))]
    rw [ih {st with current := st.current ++ [l]} hf
      (fun x hx => hbody x (List.mem_cons_of_mem _ hx))]
    simp

theorem splitIntoBlocks_joinLines (ls : List Str) (h : ∀ l ∈ ls, '\n' ∉ l) :
    splitIntoBlocks (joinLines ls)
      = (flushState (ls.foldl splitStep initState)).blocks := by
  rcases ls with _ | ⟨l, ls⟩
  · rfl
  · unfold splitIntoBlocks
    rw [splitOnNl_joinLines _ h (by simp)]

/-- C4 amended: a line opening with three or more backticks or tildes opens
a fence; every following line accumulates verbatim (blank lines included)
until a line that — at line start, with NO leading whitespace — repeats the
same fence character at least as many times as the opener, followed only by
trailing whitespace; that line closes the fence, and the block runs from
opener to closer inclusive.  Backtick and tilde fences never close each
other and shorter runs do not close, both encoded in `closesFence`. -/
theorem splitIntoBlocks_fence (s : Str) (pre body rest : List Str)
    (opener closer : Str) (c : Char) (n : Nat)
    (hsplit : splitOnNl s = pre ++ opener :: (body ++ closer :: rest))
    (hpre : (pre.foldl splitStep initState).inFence = false)
    (hopen : fenceOpen opener = some (c, n))
    (hbody : ∀ l ∈ body, closesFence c n l = false)
    (hclose : closesFence c n closer = true) :
    splitIntoBlocks s = splitIntoBlocks (joinLines pre)
      ++ joinLines (opener :: (body ++ [closer]))
        :: splitIntoBlocks (joinLines rest) := by
  have hnl : ∀ p ∈ splitOnNl s, '\n' ∉ p := splitOnNl_mem_no_nl s
  rw [hsplit] at hnl
  have hprenl : ∀ l ∈ pre, '\n' ∉ l := fun l hl => hnl l (by simp [hl])
  have hrestnl : ∀ l ∈ rest, '\n' ∉ l := fun l hl => hnl l (by simp [hl])
  rw [show splitIntoBlocks s
    = (flushState ((splitOnNl s).foldl splitStep initState)).blocks from rfl]
  rw [hsplit, List.foldl_append, List.foldl_cons,
    splitStep_open _ opener c n hpre hopen, List.foldl_append,
    foldl_fence_body body
      ⟨(flushState (pre.foldl splitStep initState)).blocks, [opener],
        true, c, n⟩ rfl hbody,
    List.foldl_cons,
    splitStep_close _ closer rfl hclose]
  have hclean : (⟨(flushState (pre.foldl splitStep initState)).blocks
        ++ [joinLines (([opener] ++ body) ++ [closer])], [], false, ' ',
        0⟩ : SplitState)
      = {initState with blocks :=
          ((flushState (pre.foldl splitStep initState)).blocks
            ++ [joinLines (([opener] ++ body) ++ [closer])])
          ++ initState.blocks} := by
    simp [initState]
  rw [hclean, foldl_splitStep_blocks, flushState_blocks_shift]
  rw [splitIntoBlocks_joinLines pre hprenl,
    splitIntoBlocks_joinLines rest hrestnl]
  simp [show ([opener] ++ body) ++ [closer] = opener :: (body ++ [closer])
    by simp]

/-- C9: the splitter never fails on an unterminated fence — the open fence
is flushed as the final block, covering the whole tail of the document;
with empty `pre` this also exhibits totality on the fence-only document.
All core operations of the embedding are total Lean functions by
construction. -/
theorem splitIntoBlocks_unterminated (s : Str) (pre body : List Str)
    (opener : Str) (c : Char) (n : Nat)
    (hsplit : splitOnNl s = pre ++ opener :: body)
    (hpre : (pre.foldl splitStep initState).inFence = false)
    (hopen : fenceOpen opener = some (c, n))
    (hbody : ∀ l ∈ body, closesFence c n l = false) :
    splitIntoBlocks s = splitIntoBlocks (joinLines pre)
      ++ [joinLines (opener :: body)] := by
  have hnl : ∀ p ∈ splitOnNl s, '\n' ∉ p := splitOnNl_mem_no_nl s
  rw [hsplit] at hnl
  have hprenl : ∀ l ∈ pre, '\n' ∉ l := fun l hl => hnl l (by simp [hl])
  rw [show splitIntoBlocks s
    = (flushState ((splitOnNl s).foldl splitStep initState)).blocks from rfl]
  rw [hsplit, List.foldl_append, List.foldl_cons,
    splitStep_open _ opener c n hpre hopen,
    foldl_fence_body body
      ⟨(flushState (pre.foldl splitStep initState)).blocks, [opener],
        true, c, n⟩ rfl hbody]
  rw [splitIntoBlocks_joinLines pre hprenl]
  simp [flushState]

/-- Counterexample to C4 as stated: on "```\n ```\nx" the line " ```"
satisfies the claim's closing test (leading whitespace before the run) but
not the code's anchored regex, so the code keeps the fence open to the end
of the input and returns the whole text as a single block, where the claim
would close the fence at " ```" and start a new block at "x". -/
theorem fence_close_ws_counterexample :
    closesFenceClaim btChar 3 [' ', btChar, btChar, btChar] = true ∧
    closesFence btChar 3 [' ', btChar, btChar, btChar] = false ∧
    splitIntoBlocks
        [btChar, btChar, btChar, '\n', ' ', btChar, btChar, btChar, '\n', 'x']
      = [[btChar, btChar, btChar, '\n', ' ', btChar, btChar, btChar, '\n',
          'x']] := by decide

/-- Witness for the amended C4: "x\n```\na\n\n````\ny" — opener of three
backticks, body lines "a" and "", closer of four backticks, surrounded by
paragraphs "x" and "y". -/
theorem splitIntoBlocks_fence_witness :
    splitIntoBlocks ['x', '\n', btChar, btChar, btChar, '\n', 'a', '\n',
        '\n', btChar, btChar, btChar, btChar, '\n', 'y']
      = splitIntoBlocks (joinLines [['x']])
        ++ joinLines ([btChar, btChar, btChar] ::
            ([['a'], []] ++ [[btChar, btChar, btChar, btChar]]))
          :: splitIntoBlocks (joinLines [['y']]) :=
  splitIntoBlocks_fence
    ['x', '\n', btChar, btChar, btChar, '\n', 'a', '\n', '\n', btChar,
      btChar, btChar, btChar, '\n', 'y']
    [['x']] [['a'], []] [['y']]
    [btChar, btChar, btChar] [btChar, btChar, btChar, btChar] btChar 3
    (by decide) (by decide) (by decide) (by decide) (by decide)

/-- Witness for C9: "```\nx" — an opening fence that is never closed; the
trailing flush emits the opener and body as one block. -/
theorem splitIntoBlocks_unterminated_witness :
    splitIntoBlocks [btChar, btChar, btChar, '\n', 'x']
      = splitIntoBlocks (joinLines ([] : List Str))
        ++ [joinLines ([btChar, btChar, btChar] :: [['x']])] :=
  splitIntoBlocks_unterminated [btChar, btChar, btChar, '\n', 'x']
    [] [['x']] [btChar, btChar, btChar] btChar 3
    (by decide) (by decide) (by decide) (by decide)

/-! Character-class facts about list lines. -/

theorem isListItem_head (l : Str) (h : isListItem l = true) :
    ∃ c t, l = c :: t ∧
      (isJsWs c = true ∨ c = '-' ∨ c = '*' ∨ c = '+' ∨ c.isDigit = true) := by
  rcases l with _ | ⟨c, t⟩
  · exact absurd h (by simp [isListItem])
  · refine ⟨c, t, rfl, ?_⟩
    by_cases hw : isJsWs c = true
    · exact Or.inl hw
    · right
      unfold isListItem at h
      rw [List.dropWhile_cons, if_neg (by simp [hw])] at h
      by_cases hd : c.isDigit = true
      · exact Or.inr (Or.inr (Or.inr hd))
      · simp [List.takeWhile_cons, hd] at h
        tauto

theorem isIndented_head (l : Str) (h : isIndented l = true) :
    ∃ c t, l = c :: t ∧ isJsWs c = true := by
  rcases l with _ | ⟨c, t⟩
  · exact absurd h (by simp [isIndented])
  · refine ⟨c, t, rfl, ?_⟩
    unfold isIndented at h
    simp at h
    exact h.1

theorem fenceOpen_cons_none (c : Char) (t : Str) (hbt : ¬c = btChar)
    (htd : ¬c = '~') : fenceOpen (c :: t) = none := by
  unfold fenceOpen
  rw [List.takeWhile_cons, if_neg (by simp [hbt]),
    List.takeWhile_cons, if_neg (by simp [htd])]

theorem isBlank_false_of_isListItem (l : Str) (h : isListItem l = true) :
    isBlank l = false := by
  by_contra hb
  have hb' : isBlank l = true := by simpa using hb
  have hall : ∀ x ∈ l, isJsWs x = true := by
    simpa [isBlank, List.all_eq_true] using hb'
  have hdrop : l.dropWhile isJsWs = [] := by
    rw [List.dropWhile_eq_nil_iff]
    exact hall
  unfold isListItem at h
  rw [hdrop] at h
  cases h

theorem isBlank_false_of_isIndented (l : Str) (h : isIndented l = true) :
    isBlank l = false := by
  by_contra hb
  have hb' : isBlank l = true := by simpa using hb
  have hall : ∀ x ∈ l, isJsWs x = true := by
    simpa [isBlank, List.all_eq_true] using hb'
  have hdrop : l.dropWhile isJsWs = [] := by
    rw [List.dropWhile_eq_nil_iff]
    exact hall
  unfold isIndented at h
  rcases l with _ | ⟨c, t⟩
  · cases h
  · rw [hdrop] at h
    simp at h

theorem listLine_head_ne (l : Str)
    (h : isListItem l = true ∨ isIndented l = true) :
    fenceOpen l = none ∧ isBlank l = false ∧ isTableRow l = false ∧
      isBlockQuote l = false := by
  have hhead : ∃ c t, l = c :: t ∧
      (isJsWs c = true ∨ c = '-' ∨ c = '*' ∨ c = '+' ∨ c.isDigit = true) := by
    rcases h with h | h
    · exact isListItem_head l h
    · rcases isIndented_head l h with ⟨c, t, heq, hc⟩
      exact ⟨c, t, heq, Or.inl hc⟩
  rcases hhead with ⟨c, t, rfl, hc⟩
  have hne : ¬c = btChar ∧ ¬c = '~' ∧ ¬c = '|' ∧ ¬c = '>' := by
    rcases hc with hc | hc | hc | hc | hc
    · refine ⟨?_, ?_, ?_, ?_⟩ <;> intro heq <;> subst heq <;> revert hc <;>
        decide
    · subst hc
      exact ⟨by decide, by decide, by decide, by decide⟩
    · subst hc
      exact ⟨by decide, by decide, by decide, by decide⟩
    · subst hc
      exact ⟨by decide, by decide, by decide, by decide⟩
    · refine ⟨?_, ?_, ?_, ?_⟩ <;> intro heq <;> subst heq <;> revert hc <;>
        decide
  refine ⟨fenceOpen_cons_none c t hne.1 hne.2.1, ?_, ?_, ?_⟩
  · rcases h with h | h
    · exact isBlank_false_of_isListItem _ h
    · exact isBlank_false_of_isIndented _ h
  · simp [isTableRow, hne.2.2.1]
  · simp [isBlockQuote, hne.2.2.2]

/-- Counterexample to C8 as stated: "para\n- a" — the bullet line arrives
while a paragraph block is open and does not start a new list block; the
splitter yields the paragraph and the bullet line as ONE block. -/
theorem list_start_counterexample :
    isListItem ['-', ' ', 'a'] = true ∧
    splitIntoBlocks ['p', '\n', '-', ' ', 'a']
      = [['p', '\n', '-', ' ', 'a']] := by decide

/-- C8 amended: outside a fence, a list-marker or indented-continuation
line never opens a block boundary by itself — it is appended to the open
block both when the block's last line is already recognized as list
content (a marker line, or an indented continuation once at least two
lines are accumulated) and when the last line is a plain paragraph line;
it begins a new block exactly when no block is open, or when the open
block's last line is a table row or block quote line not recognized as
list content (the type-transition flush). -/
theorem splitStep_list (st : SplitState) (line : Str)
    (hf : st.inFence = false)
    (hline : isListItem line = true ∨ isIndented line = true) :
    splitStep st line =
      match st.current.getLast? with
      | none => {st with current := [line]}
      | some prev =>
        if isListItem prev ||
            (isIndented prev && decide (st.current.length ≥ 2)) ||
            !(isTableRow prev || isBlockQuote prev) then
          {st with current := st.current ++ [line]}
        else {flushState st with current := [line]} := by
  obtain ⟨hfo, hbl, hTl, hQl⟩ := listLine_head_ne line hline
  have hil : (isListItem line || isIndented line) = true := by
    rcases hline with h | h <;> simp [h]
  rw [splitStep_push st line hf hfo hbl]
  cases hl : st.current.getLast? with
  | none =>
    have hcur : st.current = [] := by
      cases hc : st.current with
      | nil => rfl
      | cons a t =>
        rw [hc] at hl
        simp at hl
    have hkeep : pushKeep st.current line = true := by
      unfold pushKeep
      rw [hl]
    rw [hkeep, if_pos rfl, hcur]
    simp
  | some prev =>
    have hkeep : pushKeep st.current line =
        (isListItem prev ||
          (isIndented prev && decide (st.current.length ≥ 2)) ||
          !(isTableRow prev || isBlockQuote prev)) := by
      unfold pushKeep
      rw [hl]
      simp [hTl, hQl, hil]
    rw [hkeep]

/-- Witness for the amended C8 with an open paragraph block "p": the bullet
line "- a" is appended to it (the paragraph-absorption case), matching the
counterexample's end-to-end behavior. -/
theorem splitStep_list_witness :
    splitStep ⟨[], [['p']], false, ' ', 0⟩ ['-', ' ', 'a']
      = ⟨[], [['p'], ['-', ' ', 'a']], false, ' ', 0⟩ :=
  (splitStep_list ⟨[], [['p']], false, ' ', 0⟩ ['-', ' ', 'a']
      (by decide) (by decide)).trans (by decide)

/-! The flush/emit invariant (C10). -/

theorem headD_append_left (cur : List Str) (x : Str) (h : cur ≠ []) :
    (cur ++ [x]).headD [] = cur.headD [] := by
  rcases cur with _ | ⟨a, t⟩
  · exact absurd rfl h
  · rfl

theorem joinLines_ne_nil (l0 : Str) (rest : List Str) (h : l0 ≠ []) :
    joinLines (l0 :: rest) ≠ [] := by
  rcases rest with _ | ⟨l1, rest⟩
  · simpa [joinLines] using h
  · rcases l0 with _ | ⟨c, t⟩
    · exact absurd rfl h
    · simp [joinLines]

theorem GoodBlock_of_lines (cur : List Str) (hne : cur ≠ [])
    (hnl : ∀ l ∈ cur, '\n' ∉ l) (hhd : isBlank (cur.headD []) = false) :
    GoodBlock (joinLines cur) := by
  rcases cur with _ | ⟨l0, rest⟩
  · exact absurd rfl hne
  · have hl0 : l0 ≠ [] := by
      intro h0
      rw [h0] at hhd
      simp [isBlank] at hhd
    constructor
    · exact joinLines_ne_nil l0 rest hl0
    · rw [splitOnNl_joinLines (l0 :: rest) hnl (by simp)]
      exact hhd

theorem flushState_blocks_good (st : SplitState) (h : GoodState st) :
    ∀ b ∈ (flushState st).blocks, GoodBlock b := by
  intro b hb
  unfold flushState at hb
  by_cases hc : st.current = []
  · rw [if_pos hc] at hb
    exact h.1 b hb
  · rw [if_neg hc] at hb
    have hb' : b ∈ st.blocks ++ [joinLines st.current] := hb
    rcases List.mem_append.mp hb' with hb2 | hb2
    · exact h.1 b hb2
    · rw [List.mem_singleton] at hb2
      subst hb2
      obtain ⟨hnl, hhd⟩ := h.2.1 hc
      exact GoodBlock_of_lines st.current hc hnl hhd

theorem flushState_good (st : SplitState) (h : GoodState st)
    (hf : st.inFence = false) : GoodState (flushState st) := by
  refine ⟨flushState_blocks_good st h, ?_, ?_⟩
  · rw [flushState_current]
    intro hc
    exact absurd rfl hc
  · rw [flushState_inFence, hf]
    intro hx
    exact absurd hx (by decide)

theorem isBlank_false_of_fenceOpen (l : Str) (c : Char) (n : Nat)
    (h : fenceOpen l = some (c, n)) : isBlank l = false := by
  rcases l with _ | ⟨c0, t⟩
  · simp [fenceOpen] at h
  · by_cases hbt : c0 = btChar
    · subst hbt
      have hw : isJsWs btChar = false := by decide
      simp [isBlank, hw]
    · by_cases htd : c0 = '~'
      · subst htd
        have hw : isJsWs '~' = false := by decide
        simp [isBlank, hw]
      · rw [fenceOpen_cons_none c0 t hbt htd] at h
        cases h

theorem splitStep_good (st : SplitState) (line : Str) (h : GoodState st)
    (hnl : '\n' ∉ line) : GoodState (splitStep st line) := by
  by_cases hf : st.inFence = true
  · have hcur : st.current ≠ [] := h.2.2 hf
    obtain ⟨hcnl, hchd⟩ := h.2.1 hcur
    have hgrow : ∀ l ∈ st.current ++ [line], '\n' ∉ l := by
      intro l hl
      rcases List.mem_append.mp hl with hl | hl
      · exact hcnl l hl
      · rw [List.mem_singleton] at hl
        subst hl
        exact hnl
    by_cases hc : closesFence st.fenceChar st.fenceLen line = true
    · rw [splitStep_close st line hf hc]
      refine ⟨?_, fun hc' => absurd rfl hc', fun hx => by simp at hx⟩
      intro b hb
      have hb' : b ∈ st.blocks ++ [joinLines (st.current ++ [line])] := hb
      rcases List.mem_append.mp hb' with hb2 | hb2
      · exact h.1 b hb2
      · rw [List.mem_singleton] at hb2
        subst hb2
        refine GoodBlock_of_lines (st.current ++ [line]) (by simp) hgrow ?_
        rw [headD_append_left st.current line hcur]
        exact hchd
    · rw [splitStep_fence_acc st line hf (by simpa using hc)]
      refine ⟨h.1, ?_, fun _ => by simp⟩
      intro _
      refine ⟨hgrow, ?_⟩
      show isBlank ((st.current ++ [line]).headD []) = false
      rw [headD_append_left st.current line hcur]
      exact hchd
  · have hf' : st.inFence = false := by simpa using hf
    cases ho : fenceOpen line with
    | some cn =>
      rcases cn with ⟨c, n⟩
      rw [splitStep_open st line c n hf' ho]
      refine ⟨flushState_blocks_good st h, ?_, fun _ => by simp⟩
      intro _
      refine ⟨?_, ?_⟩
      · intro l hl
        have hl' : l ∈ [line] := hl
        rw [List.mem_singleton] at hl'
        subst hl'
        exact hnl
      · exact isBlank_false_of_fenceOpen line c n ho
    | none =>
      by_cases hb : isBlank line = true
      · rw [splitStep_blank st line hf' ho hb]
        exact flushState_good st h hf'
      · have hb' : isBlank line = false := by simpa using hb
        rw [splitStep_push st line hf' ho hb']
        by_cases hk : pushKeep st.current line = true
        · rw [if_pos hk]
          refine ⟨h.1, ?_, fun _ => by simp⟩
          intro _
          refine ⟨?_, ?_⟩
          · intro l hl
            have hl' : l ∈ st.current ++ [line] := hl
            rcases List.mem_append.mp hl' with hl2 | hl2
            · exact (h.2.1 (List.ne_nil_of_mem hl2)).1 l hl2
            · rw [List.mem_singleton] at hl2
              subst hl2
              exact hnl
          · show isBlank ((st.current ++ [line]).headD []) = false
            by_cases hcur : st.current = []
            · rw [hcur]
              exact hb'
            · rw [headD_append_left st.current line hcur]
              exact (h.2.1 hcur).2
        · rw [if_neg hk]
          refine ⟨flushState_blocks_good st h, ?_, fun _ => by simp⟩
          intro _
          refine ⟨?_, hb'⟩
          intro l hl
          have hl' : l ∈ [line] := hl
          rw [List.mem_singleton] at hl'
          subst hl'
          exact hnl

theorem foldl_splitStep_good (ls : List Str) (st : SplitState)
    (h : GoodState st) (hnl : ∀ l ∈ ls, '\n' ∉ l) :
    GoodState (ls.foldl splitStep st) := by
  induction ls generalizing st with
  | nil => exact h
  | cons l ls ih =>
    exact ih (splitStep st l)
      (splitStep_good st l h (hnl l (List.mem_cons_self _ _)))
      (fun x hx => hnl x (List.mem_cons_of_mem _ hx))

/-- C10: every block emitted by the block splitter is a non-empty string
whose first line is non-blank — blank lines outside fences act only as
boundaries, and a flush with empty accumulated content emits nothing. -/
theorem splitIntoBlocks_good (s : Str) :
    ∀ b ∈ splitIntoBlocks s, b ≠ [] ∧
      isBlank ((splitOnNl b).headD []) = false := by
  intro b hb
  have hinit : GoodState initState :=
    ⟨fun b hb => absurd hb (by simp [initState]),
     fun hc => absurd rfl hc,
     fun hx => absurd hx (by decide)⟩
  have hfin : GoodState ((splitOnNl s).foldl splitStep initState) :=
    foldl_splitStep_good (splitOnNl s) initState hinit (splitOnNl_mem_no_nl s)
  exact flushState_blocks_good _ hfin b hb

/-- Witness for C10 at the input "x": its single block is the non-empty
"x" with non-blank first line. -/
theorem splitIntoBlocks_good_witness :
    (['x'] : Str) ≠ [] ∧
      isBlank ((splitOnNl ['x']).headD []) = false :=
  splitIntoBlocks_good ['x'] ['x'] (by decide)

end MdPad
